import Mathlib

/-!
Verification of the variant-generation script `generate_variants.ts`.

The development shallowly embeds the TypeScript source:

* JavaScript runtime values that can appear in the data (strings, numbers,
  booleans, nested arrays, and the `undefined` value produced by reading a
  missing key) are the inductive type `JVal`.  JSON `null` does not occur in
  the repository's data and is not modelled.  Numbers are modelled as `Int`
  (all numbers in the data and tests are integers).
* A JavaScript object is an insertion-ordered association list `Obj`;
  `o[k]` is `getKey o k` (yielding `JVal.undef` when the key is missing),
  `o[k] = v` is `setKey o k v` (update in place, else append), `k in o` is
  `hasKey o k`, and `Object.keys` order is the list order.
* `String.prototype.toLowerCase` is `lowerStr` (ASCII case mapping, which
  agrees with JavaScript on all ASCII data).
* `crypto.randomUUID` is modelled by an abstract identifier `uuid : String`
  passed as a parameter: no property of the program observed by the
  specification depends on the generated identifier values.
* JavaScript `a > b` as used on the `price` fields is `jsGT`; on two numbers
  it is numeric comparison, and whenever one operand is `undefined` it is
  `false`, exactly as in JavaScript.  (Comparisons mixing numbers with
  non-numeric values arise only outside the declared input types.)
-/

inductive JVal where
  | str : String → JVal
  | num : Int → JVal
  | bool : Bool → JVal
  | undef : JVal
  | arr : List JVal → JVal

/-- An embedded JavaScript object: an insertion-ordered key/value list. -/
abbrev Obj := List (String × JVal)

/-- Reading `o[k]`: the value at the first matching key, `undefined` if absent. -/
def getKey : Obj → String → JVal
  | [], _ => .undef
  | kv :: rest, k => if kv.1 = k then kv.2 else getKey rest k

/-- Key-presence test (`k in o`). -/
def hasKey : Obj → String → Bool
  | [], _ => false
  | kv :: rest, k => if kv.1 = k then true else hasKey rest k

/-- Assignment `o[k] = v`: update the value in place when the key is present
(JavaScript objects have at most one occurrence of a key), else append, as
in JavaScript objects (also the semantics of a later duplicate key in an
object literal, as produced by spreading `combination` and re-listing
fields). -/
def setKey : Obj → String → JVal → Obj
  | [], k, v => [(k, v)]
  | kv :: rest, k, v => if kv.1 = k then (k, v) :: rest else kv :: setKey rest k v

/-- The keys of an object, in order. -/
def keysOf (o : Obj) : List String := o.map Prod.fst

/-- How many fields of `o` are named `k`. -/
def countKey (o : Obj) (k : String) : Nat := (keysOf o).count k

/-- ASCII lower-casing of one character. -/
def lowerChar (c : Char) : Char :=
  if 'A' ≤ c ∧ c ≤ 'Z' then Char.ofNat (c.toNat + 32) else c

/-- ASCII `toLowerCase` on strings; agrees with JavaScript on ASCII input. -/
def lowerStr (s : String) : String := ⟨s.data.map lowerChar⟩

/-- Does reading `v` give JavaScript `undefined`? -/
def isUndef : JVal → Bool
  | .undef => true
  | _ => false

/-- JavaScript `a > b` restricted to the shapes price comparisons take:
true exactly on numeric pairs with the first strictly greater.  If either
operand is `undefined` JavaScript also yields `false`. -/
def jsGT : JVal → JVal → Bool
  | .num a, .num b => b < a
  | _, _ => false

/-- One value of a product option: a bare label string, or an override
object (interface `OptionValue` of the source: a `name`, optionally `price`
and `description`, plus arbitrary further fields). -/
inductive OptValue where
  | bare : String → OptValue
  | obj : Obj → OptValue

/-- Interface `ProductOption` of the source. -/
structure ProductOption where
  name : String
  values : List OptValue

/-- Interface `Product` of the source. -/
structure Product where
  id : Int
  name : String
  options : List ProductOption
  description : String

/-- Does the object value carry some key whose lower-casing is `s`? -/
def hasKeyLC (ob : Obj) (s : String) : Bool := ob.any (fun kv => lowerStr kv.1 == s)

/-- The body of the `Object.keys(value).forEach` loop of the source, run over
the key list `l` (the whole object `ob` in the program): every key whose
lower-casing is neither `name` nor `price` is copied — by *re-reading the
object at the lower-cased key*, `variant[sanitisedKey] = value[sanitisedKey]`. -/
def extrasFoldAux (ob : Obj) (l : List (String × JVal)) (init : Obj) : Obj :=
  l.foldl
    (fun acc kv =>
      if lowerStr kv.1 = "name" ∨ lowerStr kv.1 = "price" then acc
      else setKey acc (lowerStr kv.1) (getKey ob (lowerStr kv.1)))
    init

/-- The `combination.description ?? product.description` of line 63: `??`
takes the right operand exactly when the left reads as `undefined` (JSON
input has no `null` there). -/
def descCoalesce (product : Product) (combination : Obj) : JVal :=
  if isUndef (getKey combination "description") then .str product.description
  else getKey combination "description"

/-- The object literal of lines 58–65 of the source: spread the existing
partial `combination`, then list `id`, `parentProductId`, `parentProductName`,
`description` (the partial's one if defined, else the product's — the `??`),
and `price` (carried over, possibly `undefined`). -/
def baseVariant (uuid : String) (product : Product) (combination : Obj) : Obj :=
  setKey
    (setKey
      (setKey
        (setKey
          (setKey combination "id" (.str uuid))
          "parentProductId" (.num product.id))
        "parentProductName" (.str product.name))
      "description" (descCoalesce product combination))
    "price" (getKey combination "price")

/-- The highest-price update of lines 73–76, as a function of the running
price `a` and the override's price `b`: overwrite when the running price is
still `undefined` or the override's price compares strictly greater. -/
def jsMaxPrice (a b : JVal) : JVal :=
  if isUndef a || jsGT b a then b else a

/-- The variant object built for one existing partial `combination` and one
`value` of the option being folded — the body of the inner `map` of
`generateCombinations` in `generate_variants.ts`, lines 54–90: the object
literal, then `variant[optionName] = ...`, then for override objects the
highest-price rule and the key-copying loop. -/
def buildVariant (uuid : String) (product : Product) (opt : ProductOption)
    (combination : Obj) (value : OptValue) : Obj :=
  let optionName := lowerStr opt.name
  let variant := baseVariant uuid product combination
  match value with
  | .bare s => setKey variant optionName (.str s)
  | .obj ob =>
    let variant := setKey variant optionName (getKey ob "name")
    let variant :=
      if isUndef (getKey variant "price") || jsGT (getKey ob "price") (getKey variant "price")
      then setKey variant "price" (getKey ob "price")
      else variant
    extrasFoldAux ob ob variant

/-- Function `generateCombinations` of `generate_variants.ts`: a left fold over the
options, starting from one empty partial variant, replacing the partial list
by its flattened expansion against the current option's values. -/
def generateCombinations (uuid : String) (product : Product) : List Obj :=
  product.options.foldl
    (fun combinations opt =>
      combinations.flatMap (fun combination =>
        opt.values.map (fun value => buildVariant uuid product opt combination value)))
    [([] : Obj)]

/-- All choice tuples of a list of options, one value per option, enumerated
in nested-iteration order: the first option is the outer loop. -/
def tuples : List ProductOption → List (List (ProductOption × OptValue))
  | [] => [[]]
  | opt :: rest => opt.values.flatMap (fun v => (tuples rest).map (fun t => (opt, v) :: t))

/-- Fold `buildVariant` along a choice tuple, growing a partial variant. -/
def extendPath (uuid : String) (product : Product) (combination : Obj) :
    List (ProductOption × OptValue) → Obj
  | [] => combination
  | s :: t => extendPath uuid product (buildVariant uuid product s.1 combination s.2) t

/-- The finished variant for one choice tuple. -/
def pathVariant (uuid : String) (product : Product)
    (t : List (ProductOption × OptValue)) : Obj :=
  extendPath uuid product [] t

/-- The label a chosen value contributes to the variant's option field:
the string itself for a bare value, the override's `name` for an object. -/
def valueLabel : OptValue → JVal
  | .bare s => .str s
  | .obj ob => getKey ob "name"

/-- Lexicographic enumeration of index tuples for the given radixes: the
first coordinate varies slowest.  `lexIndices [2,2] = [[0,0],[0,1],[1,0],[1,1]]`. -/
def lexIndices : List Nat → List (List Nat)
  | [] => [[]]
  | c :: cs => (List.range c).flatMap (fun i => (lexIndices cs).map (fun t => i :: t))

/-- The choice tuple selected by one index per option. -/
def pickTuple : List ProductOption → List Nat → List (ProductOption × OptValue)
  | [], _ => []
  | _, [] => []
  | opt :: os, i :: is => (opt, (opt.values).getD i (.bare "")) :: pickTuple os is

/-- The `price` read off one chosen value: `undefined` for a bare label,
the override object's `price` field otherwise. -/
def valuePrice : OptValue → JVal
  | .bare _ => .undef
  | .obj ob => getKey ob "price"

/-- Is the value a number or `undefined` — the shapes `price` may take under
the source's declared input types (`price?: number`)? -/
def numOrUndef : JVal → Bool
  | .num _ => true
  | .undef => true
  | _ => false

/-- The numeric prices carried by the override values along a choice tuple. -/
def pathPrices (t : List (ProductOption × OptValue)) : List Int :=
  t.filterMap (fun s =>
    match valuePrice s.2 with
    | .num n => some n
    | _ => none)

/-- The description an override value would write, if any: the value read at
key `description` whenever some key of the object lower-cases to
`description` (that is when the copy loop writes the field). -/
def valueDesc : OptValue → Option JVal
  | .bare _ => none
  | .obj ob => if hasKeyLC ob "description" then some (getKey ob "description") else none

/-- Is the description write of this value, if any, a defined value?  (A key
present in JSON input always holds a defined value; this can only fail for an
upper-case-lettered `Description` key, whose write re-reads the absent
lower-cased key.) -/
def descOk (w : OptValue) : Bool :=
  match valueDesc w with
  | some d => !isUndef d
  | none => true

/-- The description values written along a choice tuple, in option order:
one entry per override value whose copy loop writes `description`. -/
def pathDescs (t : List (ProductOption × OptValue)) : List JVal :=
  t.filterMap (fun s => valueDesc s.2)

/-- The label of the value chosen at the last option of the tuple whose
lower-cased name is `n`, if any. -/
def lastChoice (n : String) : List (ProductOption × OptValue) → Option JVal
  | [] => none
  | s :: t =>
    match lastChoice n t with
    | some x => some x
    | none => if lowerStr s.1.name = n then some (valueLabel s.2) else none

/-- Does the chosen value, when an override object, carry a key lower-casing
to `s` that the copy loop would write (so not `name`/`price`)? -/
def writesExtra (w : OptValue) (s : String) : Bool :=
  match w with
  | .bare _ => false
  | .obj ob => ob.any (fun kv =>
      lowerStr kv.1 == s && !(lowerStr kv.1 == "name") && !(lowerStr kv.1 == "price"))

/-! ### Basic lemmas about embedded objects -/

@[simp]
theorem getKey_nil (k : String) : getKey [] k = .undef := rfl

@[simp]
theorem hasKey_nil (k : String) : hasKey [] k = false := rfl

@[simp]
theorem getKey_setKey_self (o : Obj) (k : String) (v : JVal) :
    getKey (setKey o k v) k = v := by
  induction o with
  | nil => simp [setKey, getKey]
  | cons kv rest ih =>
    by_cases h : kv.1 = k <;> simp [setKey, getKey, h, ih]

theorem getKey_setKey_ne (o : Obj) {k k' : String} (v : JVal) (h : k' ≠ k) :
    getKey (setKey o k v) k' = getKey o k' := by
  induction o with
  | nil => simp [setKey, getKey, Ne.symm h]
  | cons kv rest ih =>
    by_cases hk : kv.1 = k
    · simp [setKey, hk, getKey, Ne.symm h]
    · by_cases hk' : kv.1 = k' <;> simp [setKey, hk, getKey, hk', h, ih]

@[simp]
theorem hasKey_setKey_self (o : Obj) (k : String) (v : JVal) :
    hasKey (setKey o k v) k = true := by
  induction o with
  | nil => simp [setKey, hasKey]
  | cons kv rest ih =>
    by_cases h : kv.1 = k <;> simp [setKey, hasKey, h, ih]

theorem hasKey_setKey_ne (o : Obj) {k k' : String} (v : JVal) (h : k' ≠ k) :
    hasKey (setKey o k v) k' = hasKey o k' := by
  induction o with
  | nil => simp [setKey, hasKey, Ne.symm h]
  | cons kv rest ih =>
    by_cases hk : kv.1 = k
    · simp [setKey, hk, hasKey, Ne.symm h]
    · by_cases hk' : kv.1 = k' <;> simp [setKey, hk, hasKey, hk', h, ih]

theorem hasKey_setKey_mono (o : Obj) {s : String} (k : String) (v : JVal)
    (h : hasKey o s = true) : hasKey (setKey o k v) s = true := by
  by_cases hk : s = k
  · subst hk; simp
  · rwa [hasKey_setKey_ne o v hk]

theorem keysOf_setKey (o : Obj) (k : String) (v : JVal) :
    keysOf (setKey o k v) = if hasKey o k then keysOf o else keysOf o ++ [k] := by
  induction o with
  | nil => simp [setKey, keysOf, hasKey]
  | cons kv rest ih =>
    by_cases h : kv.1 = k
    · simp [setKey, keysOf, hasKey, h]
    · rw [show setKey (kv :: rest) k v = kv :: setKey rest k v from by simp [setKey, h]]
      rw [show hasKey (kv :: rest) k = hasKey rest k from by simp [hasKey, h]]
      show kv.1 :: keysOf (setKey rest k v) = _
      rw [ih]
      by_cases hr : hasKey rest k <;> simp [hr, keysOf]

theorem hasKey_iff_mem_keys (o : Obj) (k : String) :
    hasKey o k = true ↔ k ∈ keysOf o := by
  induction o with
  | nil => simp [keysOf]
  | cons kv rest ih =>
    by_cases h : kv.1 = k
    · simp [hasKey, keysOf, h]
    · simp [hasKey, keysOf, h, Ne.symm h, ih]

theorem nodup_keys_setKey (o : Obj) (k : String) (v : JVal)
    (h : (keysOf o).Nodup) : (keysOf (setKey o k v)).Nodup := by
  rw [keysOf_setKey]
  by_cases hk : hasKey o k = true
  · simpa [hk] using h
  · rw [if_neg hk, List.nodup_append]
    refine ⟨h, List.nodup_singleton _, ?_⟩
    intro a ha hb
    rw [List.mem_singleton] at hb
    subst hb
    exact hk ((hasKey_iff_mem_keys o a).mpr ha)

theorem countKey_eq_one (o : Obj) (k : String)
    (hn : (keysOf o).Nodup) (h : hasKey o k = true) : countKey o k = 1 :=
  List.count_eq_one_of_mem hn ((hasKey_iff_mem_keys o k).mp h)

theorem getKey_mem_of_hasKey (o : Obj) (k : String) (h : hasKey o k = true) :
    ∃ kv ∈ o, kv.1 = k ∧ getKey o k = kv.2 := by
  induction o with
  | nil => simp [hasKey] at h
  | cons kv rest ih =>
    by_cases hk : kv.1 = k
    · exact ⟨kv, List.mem_cons_self kv rest, hk, by simp [getKey, hk]⟩
    · simp only [hasKey, hk, if_neg] at h
      obtain ⟨kv', hm, hk', hg⟩ := ih h
      exact ⟨kv', List.mem_cons_of_mem kv hm, hk', by simp [getKey, hk, hg]⟩

/-! ### Lemmas about the key-copying loop -/

theorem extrasFoldAux_nil (ob : Obj) (init : Obj) : extrasFoldAux ob [] init = init := rfl

theorem extrasFoldAux_cons (ob : Obj) (kv : String × JVal) (l : List (String × JVal))
    (init : Obj) :
    extrasFoldAux ob (kv :: l) init =
      extrasFoldAux ob l
        (if lowerStr kv.1 = "name" ∨ lowerStr kv.1 = "price" then init
         else setKey init (lowerStr kv.1) (getKey ob (lowerStr kv.1))) := rfl

theorem extrasFold_getKey_frame (ob : Obj) (l : List (String × JVal)) (init : Obj)
    (s : String) (hs : ∀ kv ∈ l, lowerStr kv.1 = s → s = "name" ∨ s = "price") :
    getKey (extrasFoldAux ob l init) s = getKey init s := by
  induction l generalizing init with
  | nil => rfl
  | cons kv l ih =>
    rw [extrasFoldAux_cons]
    by_cases hc : lowerStr kv.1 = "name" ∨ lowerStr kv.1 = "price"
    · rw [if_pos hc]
      exact ih _ (fun kv' h' => hs kv' (List.mem_cons_of_mem kv h'))
    · rw [if_neg hc, ih _ (fun kv' h' => hs kv' (List.mem_cons_of_mem kv h'))]
      apply getKey_setKey_ne
      intro he
      rcases hs kv (List.mem_cons_self kv l) he.symm with h1 | h1
      · exact hc (Or.inl (he.symm.trans h1))
      · exact hc (Or.inr (he.symm.trans h1))

theorem extrasFold_hasKey_frame (ob : Obj) (l : List (String × JVal)) (init : Obj)
    (s : String) (hs : ∀ kv ∈ l, lowerStr kv.1 = s → s = "name" ∨ s = "price") :
    hasKey (extrasFoldAux ob l init) s = hasKey init s := by
  induction l generalizing init with
  | nil => rfl
  | cons kv l ih =>
    rw [extrasFoldAux_cons]
    by_cases hc : lowerStr kv.1 = "name" ∨ lowerStr kv.1 = "price"
    · rw [if_pos hc]
      exact ih _ (fun kv' h' => hs kv' (List.mem_cons_of_mem kv h'))
    · rw [if_neg hc, ih _ (fun kv' h' => hs kv' (List.mem_cons_of_mem kv h'))]
      apply hasKey_setKey_ne
      intro he
      rcases hs kv (List.mem_cons_self kv l) he.symm with h1 | h1
      · exact hc (Or.inl (he.symm.trans h1))
      · exact hc (Or.inr (he.symm.trans h1))

theorem extrasFold_getKey_stable (ob : Obj) (l : List (String × JVal)) (init : Obj)
    (s : String) (h : getKey init s = getKey ob s) :
    getKey (extrasFoldAux ob l init) s = getKey ob s := by
  induction l generalizing init with
  | nil => exact h
  | cons kv l ih =>
    rw [extrasFoldAux_cons]
    by_cases hc : lowerStr kv.1 = "name" ∨ lowerStr kv.1 = "price"
    · rw [if_pos hc]; exact ih _ h
    · rw [if_neg hc]
      apply ih
      by_cases he : s = lowerStr kv.1
      · rw [he, getKey_setKey_self]
      · rw [getKey_setKey_ne _ _ he]; exact h

theorem extrasFold_getKey_hit (ob : Obj) (l : List (String × JVal)) (init : Obj)
    (s : String) (hnp : ¬(s = "name" ∨ s = "price")) :
    (∃ kv ∈ l, lowerStr kv.1 = s) →
    getKey (extrasFoldAux ob l init) s = getKey ob s := by
  induction l generalizing init with
  | nil => rintro ⟨kv, hm, -⟩; simp at hm
  | cons kv l ih =>
    rintro ⟨kv', hm, he⟩
    rw [extrasFoldAux_cons]
    rcases List.mem_cons.mp hm with h1 | h1
    · subst h1
      rw [if_neg (by rw [he]; exact hnp)]
      apply extrasFold_getKey_stable
      rw [he, getKey_setKey_self]
    · by_cases hc : lowerStr kv.1 = "name" ∨ lowerStr kv.1 = "price"
      · rw [if_pos hc]; exact ih _ ⟨kv', h1, he⟩
      · rw [if_neg hc]; exact ih _ ⟨kv', h1, he⟩

theorem extrasFold_hasKey_mono (ob : Obj) (l : List (String × JVal)) (init : Obj)
    (s : String) (h : hasKey init s = true) :
    hasKey (extrasFoldAux ob l init) s = true := by
  induction l generalizing init with
  | nil => exact h
  | cons kv l ih =>
    rw [extrasFoldAux_cons]
    by_cases hc : lowerStr kv.1 = "name" ∨ lowerStr kv.1 = "price"
    · rw [if_pos hc]; exact ih _ h
    · rw [if_neg hc]; exact ih _ (hasKey_setKey_mono _ _ _ h)

theorem extrasFold_hasKey_hit (ob : Obj) (l : List (String × JVal)) (init : Obj)
    (s : String) (hnp : ¬(s = "name" ∨ s = "price")) :
    (∃ kv ∈ l, lowerStr kv.1 = s) →
    hasKey (extrasFoldAux ob l init) s = true := by
  induction l generalizing init with
  | nil => rintro ⟨kv, hm, -⟩; simp at hm
  | cons kv l ih =>
    rintro ⟨kv', hm, he⟩
    rw [extrasFoldAux_cons]
    rcases List.mem_cons.mp hm with h1 | h1
    · subst h1
      rw [if_neg (by rw [he]; exact hnp)]
      apply extrasFold_hasKey_mono
      rw [he, hasKey_setKey_self]
    · by_cases hc : lowerStr kv.1 = "name" ∨ lowerStr kv.1 = "price"
      · rw [if_pos hc]; exact ih _ ⟨kv', h1, he⟩
      · rw [if_neg hc]; exact ih _ ⟨kv', h1, he⟩

theorem extrasFold_nodup (ob : Obj) (l : List (String × JVal)) (init : Obj)
    (h : (keysOf init).Nodup) : (keysOf (extrasFoldAux ob l init)).Nodup := by
  induction l generalizing init with
  | nil => exact h
  | cons kv l ih =>
    rw [extrasFoldAux_cons]
    by_cases hc : lowerStr kv.1 = "name" ∨ lowerStr kv.1 = "price"
    · rw [if_pos hc]; exact ih _ h
    · rw [if_neg hc]; exact ih _ (nodup_keys_setKey _ _ _ h)

/-! ### Lemmas about the object literal -/

theorem getKey_baseVariant_price (uuid : String) (p : Product) (comb : Obj) :
    getKey (baseVariant uuid p comb) "price" = getKey comb "price" :=
  getKey_setKey_self _ _ _

theorem getKey_baseVariant_desc (uuid : String) (p : Product) (comb : Obj) :
    getKey (baseVariant uuid p comb) "description" = descCoalesce p comb := by
  unfold baseVariant
  rw [getKey_setKey_ne _ _ (by decide : ("description" : String) ≠ "price")]
  exact getKey_setKey_self _ _ _

theorem getKey_baseVariant_frame (uuid : String) (p : Product) (comb : Obj) (s : String)
    (h1 : s ≠ "id") (h2 : s ≠ "parentProductId") (h3 : s ≠ "parentProductName")
    (h4 : s ≠ "description") (h5 : s ≠ "price") :
    getKey (baseVariant uuid p comb) s = getKey comb s := by
  unfold baseVariant
  rw [getKey_setKey_ne _ _ h5, getKey_setKey_ne _ _ h4, getKey_setKey_ne _ _ h3,
    getKey_setKey_ne _ _ h2, getKey_setKey_ne _ _ h1]

theorem hasKey_baseVariant_frame (uuid : String) (p : Product) (comb : Obj) (s : String)
    (h1 : s ≠ "id") (h2 : s ≠ "parentProductId") (h3 : s ≠ "parentProductName")
    (h4 : s ≠ "description") (h5 : s ≠ "price") :
    hasKey (baseVariant uuid p comb) s = hasKey comb s := by
  unfold baseVariant
  rw [hasKey_setKey_ne _ _ h5, hasKey_setKey_ne _ _ h4, hasKey_setKey_ne _ _ h3,
    hasKey_setKey_ne _ _ h2, hasKey_setKey_ne _ _ h1]

theorem hasKey_baseVariant_base (uuid : String) (p : Product) (comb : Obj) (s : String)
    (h : s = "id" ∨ s = "parentProductId" ∨ s = "parentProductName" ∨
      s = "description" ∨ s = "price") :
    hasKey (baseVariant uuid p comb) s = true := by
  unfold baseVariant
  rcases h with h | h | h | h | h <;> subst h
  · exact hasKey_setKey_mono _ _ _ (hasKey_setKey_mono _ _ _ (hasKey_setKey_mono _ _ _
      (hasKey_setKey_mono _ _ _ (hasKey_setKey_self _ _ _))))
  · exact hasKey_setKey_mono _ _ _ (hasKey_setKey_mono _ _ _ (hasKey_setKey_mono _ _ _
      (hasKey_setKey_self _ _ _)))
  · exact hasKey_setKey_mono _ _ _ (hasKey_setKey_mono _ _ _ (hasKey_setKey_self _ _ _))
  · exact hasKey_setKey_mono _ _ _ (hasKey_setKey_self _ _ _)
  · exact hasKey_setKey_self _ _ _

theorem hasKey_baseVariant_mono (uuid : String) (p : Product) (comb : Obj) (s : String)
    (h : hasKey comb s = true) : hasKey (baseVariant uuid p comb) s = true :=
  hasKey_setKey_mono _ _ _ (hasKey_setKey_mono _ _ _ (hasKey_setKey_mono _ _ _
    (hasKey_setKey_mono _ _ _ (hasKey_setKey_mono _ _ _ h))))

theorem nodup_baseVariant (uuid : String) (p : Product) (comb : Obj)
    (h : (keysOf comb).Nodup) : (keysOf (baseVariant uuid p comb)).Nodup :=
  nodup_keys_setKey _ _ _ (nodup_keys_setKey _ _ _ (nodup_keys_setKey _ _ _
    (nodup_keys_setKey _ _ _ (nodup_keys_setKey _ _ _ h))))

/-! ### Lemmas about one `buildVariant` step -/

theorem buildVariant_getKey_price (uuid : String) (p : Product) (opt : ProductOption)
    (comb : Obj) (w : OptValue) (hp : lowerStr opt.name ≠ "price") :
    getKey (buildVariant uuid p opt comb w) "price" =
      match w with
      | .bare _ => getKey comb "price"
      | .obj ob => jsMaxPrice (getKey comb "price") (getKey ob "price") := by
  cases w with
  | bare s =>
    show getKey (setKey (baseVariant uuid p comb) (lowerStr opt.name) (.str s)) "price" = _
    rw [getKey_setKey_ne _ _ (Ne.symm hp)]
    exact getKey_baseVariant_price _ _ _
  | obj ob =>
    show getKey (extrasFoldAux ob ob _) "price" = _
    rw [extrasFold_getKey_frame _ _ _ _ (fun kv _ h => Or.inr rfl)]
    have hv6 : getKey (setKey (baseVariant uuid p comb) (lowerStr opt.name)
        (getKey ob "name")) "price" = getKey comb "price" := by
      rw [getKey_setKey_ne _ _ (Ne.symm hp)]
      exact getKey_baseVariant_price _ _ _
    rw [hv6]
    by_cases hcnd : (isUndef (getKey comb "price")
        || jsGT (getKey ob "price") (getKey comb "price")) = true
    · rw [if_pos hcnd, getKey_setKey_self]
      show _ = jsMaxPrice _ _
      rw [jsMaxPrice, if_pos hcnd]
    · rw [if_neg hcnd, hv6]
      show _ = jsMaxPrice _ _
      rw [jsMaxPrice, if_neg hcnd]

theorem buildVariant_getKey_desc (uuid : String) (p : Product) (opt : ProductOption)
    (comb : Obj) (w : OptValue) (hd : lowerStr opt.name ≠ "description") :
    getKey (buildVariant uuid p opt comb w) "description" =
      match w with
      | .bare _ => descCoalesce p comb
      | .obj ob =>
        if hasKeyLC ob "description" then getKey ob "description"
        else descCoalesce p comb := by
  cases w with
  | bare s =>
    show getKey (setKey (baseVariant uuid p comb) (lowerStr opt.name) (.str s))
      "description" = _
    rw [getKey_setKey_ne _ _ (Ne.symm hd)]
    exact getKey_baseVariant_desc _ _ _
  | obj ob =>
    show getKey (extrasFoldAux ob ob _) "description" = _
    by_cases hk : hasKeyLC ob "description" = true
    · obtain ⟨kv, hm, he⟩ : ∃ kv ∈ ob, lowerStr kv.1 = "description" := by
        simpa [hasKeyLC, List.any_eq_true] using hk
      rw [extrasFold_getKey_hit _ _ _ _ (by decide) ⟨kv, hm, he⟩]
      simp [hk]
    · have hs : ∀ kv ∈ ob, lowerStr kv.1 = "description" →
          ("description" : String) = "name" ∨ ("description" : String) = "price" := by
        intro kv hm he
        have hck : hasKeyLC ob "description" = true := by
          simp only [hasKeyLC, List.any_eq_true]
          exact ⟨kv, hm, by simp [he]⟩
        exact absurd hck hk
      rw [extrasFold_getKey_frame _ _ _ _ hs]
      have hif : ∀ (o : Obj) (v : JVal) (c : Bool),
          getKey (if c then setKey o "price" v else o) "description" =
            getKey o "description" := by
        intro o v c
        by_cases hc : c = true
        · rw [if_pos hc, getKey_setKey_ne _ _ (by decide : ("description" : String) ≠ "price")]
        · rw [if_neg hc]
      rw [hif, getKey_setKey_ne _ _ (Ne.symm hd)]
      simp only [hk, if_neg]
      · exact getKey_baseVariant_desc _ _ _

theorem buildVariant_getKey_field_bare (uuid : String) (p : Product) (opt : ProductOption)
    (comb : Obj) (s : String) :
    getKey (buildVariant uuid p opt comb (.bare s)) (lowerStr opt.name) = .str s :=
  getKey_setKey_self _ _ _

theorem buildVariant_getKey_field_obj (uuid : String) (p : Product) (opt : ProductOption)
    (comb : Obj) (ob : Obj) (hp : lowerStr opt.name ≠ "price")
    (hs : ∀ kv ∈ ob, lowerStr kv.1 = lowerStr opt.name →
      lowerStr opt.name = "name" ∨ lowerStr opt.name = "price") :
    getKey (buildVariant uuid p opt comb (.obj ob)) (lowerStr opt.name) =
      getKey ob "name" := by
  show getKey (extrasFoldAux ob ob _) _ = _
  rw [extrasFold_getKey_frame _ _ _ _ hs]
  have hif : ∀ (o : Obj) (v : JVal) (c : Bool),
      getKey (if c then setKey o "price" v else o) (lowerStr opt.name) =
        getKey o (lowerStr opt.name) := by
    intro o v c
    by_cases hc : c = true
    · rw [if_pos hc, getKey_setKey_ne _ _ hp]
    · rw [if_neg hc]
  rw [hif]
  exact getKey_setKey_self _ _ _

theorem buildVariant_getKey_frame (uuid : String) (p : Product) (opt : ProductOption)
    (comb : Obj) (w : OptValue) (s : String)
    (h1 : s ≠ "id") (h2 : s ≠ "parentProductId") (h3 : s ≠ "parentProductName")
    (h4 : s ≠ "description") (h5 : s ≠ "price") (h6 : s ≠ lowerStr opt.name)
    (h7 : ∀ ob, w = .obj ob → ∀ kv ∈ ob, lowerStr kv.1 = s →
      s = "name" ∨ s = "price") :
    getKey (buildVariant uuid p opt comb w) s = getKey comb s := by
  cases w with
  | bare lbl =>
    show getKey (setKey (baseVariant uuid p comb) (lowerStr opt.name) (.str lbl)) s = _
    rw [getKey_setKey_ne _ _ h6]
    exact getKey_baseVariant_frame _ _ _ _ h1 h2 h3 h4 h5
  | obj ob =>
    show getKey (extrasFoldAux ob ob _) s = _
    rw [extrasFold_getKey_frame _ _ _ _ (h7 ob rfl)]
    have hif : ∀ (o : Obj) (v : JVal) (c : Bool),
        getKey (if c then setKey o "price" v else o) s = getKey o s := by
      intro o v c
      by_cases hc : c = true
      · rw [if_pos hc, getKey_setKey_ne _ _ h5]
      · rw [if_neg hc]
    rw [hif, getKey_setKey_ne _ _ h6]
    exact getKey_baseVariant_frame _ _ _ _ h1 h2 h3 h4 h5

theorem buildVariant_hasKey_frame (uuid : String) (p : Product) (opt : ProductOption)
    (comb : Obj) (w : OptValue) (s : String)
    (h1 : s ≠ "id") (h2 : s ≠ "parentProductId") (h3 : s ≠ "parentProductName")
    (h4 : s ≠ "description") (h5 : s ≠ "price") (h6 : s ≠ lowerStr opt.name)
    (h7 : ∀ ob, w = .obj ob → ∀ kv ∈ ob, lowerStr kv.1 = s →
      s = "name" ∨ s = "price") :
    hasKey (buildVariant uuid p opt comb w) s = hasKey comb s := by
  cases w with
  | bare lbl =>
    show hasKey (setKey (baseVariant uuid p comb) (lowerStr opt.name) (.str lbl)) s = _
    rw [hasKey_setKey_ne _ _ h6]
    exact hasKey_baseVariant_frame _ _ _ _ h1 h2 h3 h4 h5
  | obj ob =>
    show hasKey (extrasFoldAux ob ob _) s = _
    rw [extrasFold_hasKey_frame _ _ _ _ (h7 ob rfl)]
    have hif : ∀ (o : Obj) (v : JVal) (c : Bool),
        hasKey (if c then setKey o "price" v else o) s = hasKey o s := by
      intro o v c
      by_cases hc : c = true
      · rw [if_pos hc, hasKey_setKey_ne _ _ h5]
      · rw [if_neg hc]
    rw [hif, hasKey_setKey_ne _ _ h6]
    exact hasKey_baseVariant_frame _ _ _ _ h1 h2 h3 h4 h5

theorem buildVariant_hasKey_of_base (uuid : String) (p : Product) (opt : ProductOption)
    (comb : Obj) (w : OptValue) (s : String)
    (h : hasKey (baseVariant uuid p comb) s = true) :
    hasKey (buildVariant uuid p opt comb w) s = true := by
  cases w with
  | bare lbl => exact hasKey_setKey_mono _ _ _ h
  | obj ob =>
    show hasKey (extrasFoldAux ob ob _) s = true
    apply extrasFold_hasKey_mono
    have h6 : hasKey (setKey (baseVariant uuid p comb) (lowerStr opt.name)
        (getKey ob "name")) s = true := hasKey_setKey_mono _ _ _ h
    by_cases hc : (isUndef (getKey (setKey (baseVariant uuid p comb) (lowerStr opt.name)
          (getKey ob "name")) "price")
        || jsGT (getKey ob "price") (getKey (setKey (baseVariant uuid p comb)
          (lowerStr opt.name) (getKey ob "name")) "price")) = true
    · rw [if_pos hc]
      exact hasKey_setKey_mono _ _ _ h6
    · rw [if_neg hc]
      exact h6

theorem buildVariant_hasKey_base (uuid : String) (p : Product) (opt : ProductOption)
    (comb : Obj) (w : OptValue) (s : String)
    (h : s = "id" ∨ s = "parentProductId" ∨ s = "parentProductName" ∨
      s = "description" ∨ s = "price") :
    hasKey (buildVariant uuid p opt comb w) s = true :=
  buildVariant_hasKey_of_base _ _ _ _ _ _ (hasKey_baseVariant_base _ _ _ _ h)

theorem buildVariant_hasKey_mono (uuid : String) (p : Product) (opt : ProductOption)
    (comb : Obj) (w : OptValue) (s : String) (h : hasKey comb s = true) :
    hasKey (buildVariant uuid p opt comb w) s = true :=
  buildVariant_hasKey_of_base _ _ _ _ _ _ (hasKey_baseVariant_mono _ _ _ _ h)

theorem buildVariant_hasKey_field (uuid : String) (p : Product) (opt : ProductOption)
    (comb : Obj) (w : OptValue) :
    hasKey (buildVariant uuid p opt comb w) (lowerStr opt.name) = true := by
  cases w with
  | bare lbl => exact hasKey_setKey_self _ _ _
  | obj ob =>
    show hasKey (extrasFoldAux ob ob _) _ = true
    apply extrasFold_hasKey_mono
    have h6 : hasKey (setKey (baseVariant uuid p comb) (lowerStr opt.name)
        (getKey ob "name")) (lowerStr opt.name) = true := hasKey_setKey_self _ _ _
    by_cases hc : (isUndef (getKey (setKey (baseVariant uuid p comb) (lowerStr opt.name)
          (getKey ob "name")) "price")
        || jsGT (getKey ob "price") (getKey (setKey (baseVariant uuid p comb)
          (lowerStr opt.name) (getKey ob "name")) "price")) = true
    · rw [if_pos hc]
      exact hasKey_setKey_mono _ _ _ h6
    · rw [if_neg hc]
      exact h6

theorem buildVariant_hasKey_extra (uuid : String) (p : Product) (opt : ProductOption)
    (comb : Obj) (ob : Obj) (kv : String × JVal) (hm : kv ∈ ob)
    (hnp : ¬(lowerStr kv.1 = "name" ∨ lowerStr kv.1 = "price")) :
    hasKey (buildVariant uuid p opt comb (.obj ob)) (lowerStr kv.1) = true := by
  show hasKey (extrasFoldAux ob ob _) _ = true
  exact extrasFold_hasKey_hit _ _ _ _ hnp ⟨kv, hm, rfl⟩

theorem buildVariant_nodup (uuid : String) (p : Product) (opt : ProductOption)
    (comb : Obj) (w : OptValue) (h : (keysOf comb).Nodup) :
    (keysOf (buildVariant uuid p opt comb w)).Nodup := by
  cases w with
  | bare lbl => exact nodup_keys_setKey _ _ _ (nodup_baseVariant _ _ _ h)
  | obj ob =>
    show (keysOf (extrasFoldAux ob ob _)).Nodup
    apply extrasFold_nodup
    have h6 : (keysOf (setKey (baseVariant uuid p comb) (lowerStr opt.name)
        (getKey ob "name"))).Nodup := nodup_keys_setKey _ _ _ (nodup_baseVariant _ _ _ h)
    by_cases hc : (isUndef (getKey (setKey (baseVariant uuid p comb) (lowerStr opt.name)
          (getKey ob "name")) "price")
        || jsGT (getKey ob "price") (getKey (setKey (baseVariant uuid p comb)
          (lowerStr opt.name) (getKey ob "name")) "price")) = true
    · rw [if_pos hc]
      exact nodup_keys_setKey _ _ _ h6
    · rw [if_neg hc]
      exact h6

/-! ### The fold computes one variant per choice tuple, in enumeration order -/

theorem foldl_flatMap_eq (uuid : String) (p : Product) :
    ∀ (os : List ProductOption) (L : List Obj),
      os.foldl
        (fun combinations opt =>
          combinations.flatMap (fun combination =>
            opt.values.map (fun value => buildVariant uuid p opt combination value))) L
      = L.flatMap (fun comb => (tuples os).map (extendPath uuid p comb)) := by
  intro os
  induction os with
  | nil =>
    intro L
    simp [tuples, extendPath]
  | cons o rest ih =>
    intro L
    rw [List.foldl_cons, ih, List.flatMap_assoc]
    refine congrArg (List.flatMap L) (funext fun comb => ?_)
    rw [List.flatMap_map]
    simp only [tuples, List.map_flatMap, List.map_map]
    refine congrArg (List.flatMap o.values) (funext fun v => ?_)
    refine congrArg (List.map · (tuples rest)) (funext fun t => ?_)
    rfl

theorem generateCombinations_eq_tuples (uuid : String) (p : Product) :
    generateCombinations uuid p = (tuples p.options).map (pathVariant uuid p) := by
  unfold generateCombinations
  rw [foldl_flatMap_eq]
  simp [pathVariant]

theorem tuples_length (os : List ProductOption) :
    (tuples os).length = (os.map (fun o => o.values.length)).prod := by
  induction os with
  | nil => rfl
  | cons o rest ih =>
    rw [show tuples (o :: rest)
        = o.values.flatMap (fun v => (tuples rest).map (fun t => (o, v) :: t)) from rfl]
    rw [List.length_flatMap]
    have hmap : List.map (List.length ∘ fun v => (tuples rest).map (fun t => (o, v) :: t))
        o.values = List.replicate o.values.length (tuples rest).length := by
      have h1 : (List.length ∘ fun v : OptValue => (tuples rest).map (fun t => (o, v) :: t))
          = fun _ => (tuples rest).length := funext (fun v => by simp)
      rw [h1, List.map_const']
    rw [hmap, List.sum_replicate, smul_eq_mul, ih, List.map_cons, List.prod_cons]

theorem flatMap_eq_range_flatMap {α β : Type} (d : α) :
    ∀ (l : List α) (F : α → List β),
      l.flatMap F = (List.range l.length).flatMap (fun i => F (l.getD i d)) := by
  intro l
  induction l with
  | nil => intro F; rfl
  | cons a l ih =>
    intro F
    rw [List.flatMap_cons, List.length_cons, List.range_succ_eq_map, List.flatMap_cons,
      List.flatMap_map, ih]
    rfl

theorem tuples_eq_lexIndices (os : List ProductOption) :
    tuples os = (lexIndices (os.map (fun o => o.values.length))).map (pickTuple os) := by
  induction os with
  | nil => rfl
  | cons o rest ih =>
    rw [show tuples (o :: rest)
        = o.values.flatMap (fun v => (tuples rest).map (fun t => (o, v) :: t)) from rfl]
    rw [flatMap_eq_range_flatMap (OptValue.bare "") o.values, List.map_cons]
    rw [show lexIndices (o.values.length :: List.map (fun o => o.values.length) rest)
        = (List.range o.values.length).flatMap
            (fun i => (lexIndices (List.map (fun o => o.values.length) rest)).map
              (fun t => i :: t)) from rfl]
    rw [List.map_flatMap]
    refine congrArg (List.flatMap (List.range o.values.length)) (funext fun i => ?_)
    rw [ih, List.map_map, List.map_map]
    refine congrArg (List.map · (lexIndices (List.map (fun o => o.values.length) rest)))
      (funext fun t => ?_)
    rfl

/-- Each component of a choice tuple pairs the corresponding option with one
of that option's values. -/
def tupleMatches (s : ProductOption × OptValue) (o : ProductOption) : Prop :=
  s.1 = o ∧ s.2 ∈ o.values

theorem tuples_forall₂ (os : List ProductOption)
    (t : List (ProductOption × OptValue)) (h : t ∈ tuples os) :
    List.Forall₂ tupleMatches t os := by
  induction os generalizing t with
  | nil =>
    rw [show tuples [] = [[]] from rfl, List.mem_singleton] at h
    subst h
    exact List.Forall₂.nil
  | cons o rest ih =>
    rw [show tuples (o :: rest)
        = o.values.flatMap (fun v => (tuples rest).map (fun t => (o, v) :: t)) from rfl] at h
    rw [List.mem_flatMap] at h
    obtain ⟨v, hv, hm⟩ := h
    rw [List.mem_map] at hm
    obtain ⟨t', ht', rfl⟩ := hm
    exact List.Forall₂.cons ⟨rfl, hv⟩ (ih t' ht')

theorem forall₂_mem_option (t : List (ProductOption × OptValue))
    (os : List ProductOption) (h : List.Forall₂ tupleMatches t os)
    (opt : ProductOption) (hm : opt ∈ os) : ∃ w ∈ opt.values, (opt, w) ∈ t := by
  induction h with
  | nil => simp at hm
  | @cons s o t' os' hso hrest ih =>
    rcases List.mem_cons.mp hm with h1 | h1
    · subst h1
      obtain ⟨hs1, hs2⟩ := hso
      refine ⟨s.2, hs2, ?_⟩
      have : s = (opt, s.2) := by
        cases s
        simp at hs1 ⊢
        exact hs1
      rw [← this]
      exact List.mem_cons_self _ _
    · obtain ⟨w, hw, hwt⟩ := ih h1
      exact ⟨w, hw, List.mem_cons_of_mem _ hwt⟩

/-! ### Walking a whole choice tuple -/

theorem extendPath_cons (uuid : String) (p : Product) (comb : Obj)
    (st : ProductOption × OptValue) (t : List (ProductOption × OptValue)) :
    extendPath uuid p comb (st :: t)
      = extendPath uuid p (buildVariant uuid p st.1 comb st.2) t := rfl

theorem writesExtra_frame (w : OptValue) (s : String) (h : writesExtra w s = false) :
    ∀ ob, w = .obj ob → ∀ kv ∈ ob, lowerStr kv.1 = s →
      s = "name" ∨ s = "price" := by
  intro ob hw kv hm he
  subst hw
  by_contra hnp
  rw [not_or] at hnp
  have : writesExtra (.obj ob) s = true := by
    simp only [writesExtra, List.any_eq_true]
    refine ⟨kv, hm, ?_⟩
    rw [he]
    simp [hnp.1, hnp.2]
  rw [this] at h
  exact Bool.noConfusion h

theorem writesExtra_true_elim (w : OptValue) (s : String) (h : writesExtra w s = true) :
    ∃ ob, w = .obj ob ∧ ∃ kv ∈ ob, lowerStr kv.1 = s ∧
      ¬(lowerStr kv.1 = "name" ∨ lowerStr kv.1 = "price") := by
  cases w with
  | bare lbl => simp [writesExtra] at h
  | obj ob =>
    refine ⟨ob, rfl, ?_⟩
    simp only [writesExtra, List.any_eq_true] at h
    obtain ⟨kv, hm, hb⟩ := h
    simp only [Bool.and_eq_true, beq_iff_eq, Bool.not_eq_true', beq_eq_false_iff_ne] at hb
    exact ⟨kv, hm, hb.1.1, by rw [not_or]; exact ⟨hb.1.2, hb.2⟩⟩

theorem extendPath_getKey_frame (uuid : String) (p : Product) (s : String)
    (h1 : s ≠ "id") (h2 : s ≠ "parentProductId") (h3 : s ≠ "parentProductName")
    (h4 : s ≠ "description") (h5 : s ≠ "price") :
    ∀ (t : List (ProductOption × OptValue)) (comb : Obj),
      (∀ st ∈ t, s ≠ lowerStr st.1.name) →
      (∀ st ∈ t, writesExtra st.2 s = false) →
      getKey (extendPath uuid p comb t) s = getKey comb s := by
  intro t
  induction t with
  | nil => intro comb _ _; rfl
  | cons st t ih =>
    intro comb hopt hex
    rw [extendPath_cons,
      ih _ (fun x hx => hopt x (List.mem_cons_of_mem _ hx))
        (fun x hx => hex x (List.mem_cons_of_mem _ hx))]
    exact buildVariant_getKey_frame _ _ _ _ _ _ h1 h2 h3 h4 h5
      (hopt st (List.mem_cons_self _ _))
      (writesExtra_frame _ _ (hex st (List.mem_cons_self _ _)))

theorem extendPath_hasKey_mono (uuid : String) (p : Product) (s : String) :
    ∀ (t : List (ProductOption × OptValue)) (comb : Obj),
      hasKey comb s = true → hasKey (extendPath uuid p comb t) s = true := by
  intro t
  induction t with
  | nil => intro comb h; exact h
  | cons st t ih =>
    intro comb h
    rw [extendPath_cons]
    exact ih _ (buildVariant_hasKey_mono _ _ _ _ _ _ h)

theorem extendPath_nodup (uuid : String) (p : Product) :
    ∀ (t : List (ProductOption × OptValue)) (comb : Obj),
      (keysOf comb).Nodup → (keysOf (extendPath uuid p comb t)).Nodup := by
  intro t
  induction t with
  | nil => intro comb h; exact h
  | cons st t ih =>
    intro comb h
    rw [extendPath_cons]
    exact ih _ (buildVariant_nodup _ _ _ _ _ h)

theorem extendPath_hasKey_base (uuid : String) (p : Product)
    (t : List (ProductOption × OptValue)) (comb : Obj) (s : String) (ht : t ≠ [])
    (h : s = "id" ∨ s = "parentProductId" ∨ s = "parentProductName" ∨
      s = "description" ∨ s = "price") :
    hasKey (extendPath uuid p comb t) s = true := by
  cases t with
  | nil => exact absurd rfl ht
  | cons st t =>
    rw [extendPath_cons]
    exact extendPath_hasKey_mono _ _ _ _ _ (buildVariant_hasKey_base _ _ _ _ _ _ h)

theorem extendPath_hasKey_field (uuid : String) (p : Product) :
    ∀ (t : List (ProductOption × OptValue)) (comb : Obj) (opt : ProductOption)
      (w : OptValue), (opt, w) ∈ t →
      hasKey (extendPath uuid p comb t) (lowerStr opt.name) = true := by
  intro t
  induction t with
  | nil => intro comb opt w h; simp at h
  | cons st t ih =>
    intro comb opt w h
    rw [extendPath_cons]
    rcases List.mem_cons.mp h with h1 | h1
    · rw [← h1]
      exact extendPath_hasKey_mono _ _ _ _ _ (buildVariant_hasKey_field _ _ _ _ _)
    · exact ih _ _ _ h1

theorem extendPath_hasKey_extraWrite (uuid : String) (p : Product) (s : String) :
    ∀ (t : List (ProductOption × OptValue)) (comb : Obj)
      (st : ProductOption × OptValue), st ∈ t → writesExtra st.2 s = true →
      hasKey (extendPath uuid p comb t) s = true := by
  intro t
  induction t with
  | nil => intro comb st h _; simp at h
  | cons st0 t ih =>
    intro comb st h hw
    rw [extendPath_cons]
    rcases List.mem_cons.mp h with h1 | h1
    · subst h1
      obtain ⟨ob, hob, kv, hm, he, hnp⟩ := writesExtra_true_elim _ _ hw
      apply extendPath_hasKey_mono
      rw [hob, ← he]
      exact buildVariant_hasKey_extra _ _ _ _ _ _ hm hnp
    · exact ih _ _ h1 hw

/-! ### The running price along a tuple -/

/-- The running price after walking the tuple: fold the highest-price update
over the chosen values' prices (bare values contribute `undefined`, which
never changes the running price). -/
def pathPriceFold (a : JVal) (t : List (ProductOption × OptValue)) : JVal :=
  t.foldl (fun a st => jsMaxPrice a (valuePrice st.2)) a

theorem jsMaxPrice_undef_right (a : JVal) : jsMaxPrice a .undef = a := by
  cases a <;> rfl

theorem buildVariant_getKey_price_fold (uuid : String) (p : Product)
    (opt : ProductOption) (comb : Obj) (w : OptValue)
    (hp : lowerStr opt.name ≠ "price") :
    getKey (buildVariant uuid p opt comb w) "price"
      = jsMaxPrice (getKey comb "price") (valuePrice w) := by
  rw [buildVariant_getKey_price _ _ _ _ _ hp]
  cases w with
  | bare lbl => rw [valuePrice, jsMaxPrice_undef_right]
  | obj ob => rfl

theorem extendPath_getKey_price (uuid : String) (p : Product) :
    ∀ (t : List (ProductOption × OptValue)) (comb : Obj),
      (∀ st ∈ t, lowerStr st.1.name ≠ "price") →
      getKey (extendPath uuid p comb t) "price"
        = pathPriceFold (getKey comb "price") t := by
  intro t
  induction t with
  | nil => intro comb _; rfl
  | cons st t ih =>
    intro comb hn
    rw [extendPath_cons, ih _ (fun x hx => hn x (List.mem_cons_of_mem _ hx)),
      buildVariant_getKey_price_fold _ _ _ _ _ (hn st (List.mem_cons_self _ _))]
    rfl

/-- The numeric content of a possibly-`undefined` price. -/
def optPrice : JVal → List Int
  | .num m => [m]
  | _ => []

theorem pathPrices_cons (st : ProductOption × OptValue)
    (t : List (ProductOption × OptValue)) :
    pathPrices (st :: t) = optPrice (valuePrice st.2) ++ pathPrices t := by
  cases h : valuePrice st.2 <;>
    simp [pathPrices, optPrice, List.filterMap_cons, h]

theorem jsMaxPrice_shape (a b : JVal) (ha : numOrUndef a = true)
    (hb : numOrUndef b = true) :
    (a = .undef ∧ b = .undef ∧ jsMaxPrice a b = .undef) ∨
    (∃ m, jsMaxPrice a b = .num m ∧ m ∈ optPrice a ++ optPrice b ∧
      ∀ q ∈ optPrice a ++ optPrice b, q ≤ m) := by
  cases a with
  | undef =>
    cases b with
    | undef => exact Or.inl ⟨rfl, rfl, rfl⟩
    | num n =>
      refine Or.inr ⟨n, rfl, ?_, ?_⟩
      · simp [optPrice]
      · intro q hq; simp [optPrice] at hq; omega
    | str _ => simp [numOrUndef] at hb
    | bool _ => simp [numOrUndef] at hb
    | arr _ => simp [numOrUndef] at hb
  | num m =>
    cases b with
    | undef =>
      refine Or.inr ⟨m, ?_, ?_, ?_⟩
      · rw [jsMaxPrice_undef_right]
      · simp [optPrice]
      · intro q hq; simp [optPrice] at hq; omega
    | num n =>
      by_cases hmn : m < n
      · refine Or.inr ⟨n, ?_, ?_, ?_⟩
        · simp [jsMaxPrice, isUndef, jsGT, hmn]
        · simp [optPrice]
        · intro q hq; simp [optPrice] at hq; rcases hq with h | h <;> omega
      · refine Or.inr ⟨m, ?_, ?_, ?_⟩
        · simp [jsMaxPrice, isUndef, jsGT, hmn]
        · simp [optPrice]
        · intro q hq; simp [optPrice] at hq; rcases hq with h | h <;> omega
    | str _ => simp [numOrUndef] at hb
    | bool _ => simp [numOrUndef] at hb
    | arr _ => simp [numOrUndef] at hb
  | str _ => simp [numOrUndef] at ha
  | bool _ => simp [numOrUndef] at ha
  | arr _ => simp [numOrUndef] at ha

theorem numOrUndef_jsMaxPrice (a b : JVal) (ha : numOrUndef a = true)
    (hb : numOrUndef b = true) : numOrUndef (jsMaxPrice a b) = true := by
  rcases jsMaxPrice_shape a b ha hb with ⟨-, -, h⟩ | ⟨m, h, -, -⟩ <;> rw [h] <;> rfl

theorem pathPriceFold_max :
    ∀ (t : List (ProductOption × OptValue)) (a : JVal), numOrUndef a = true →
      (∀ st ∈ t, numOrUndef (valuePrice st.2) = true) →
      (optPrice a ++ pathPrices t = [] ∧ pathPriceFold a t = .undef) ∨
      (∃ m, pathPriceFold a t = .num m ∧ m ∈ optPrice a ++ pathPrices t ∧
        ∀ q ∈ optPrice a ++ pathPrices t, q ≤ m) := by
  intro t
  induction t with
  | nil =>
    intro a ha _
    cases a with
    | undef => exact Or.inl ⟨rfl, rfl⟩
    | num m =>
      refine Or.inr ⟨m, rfl, ?_, ?_⟩
      · simp [optPrice, pathPrices]
      · intro q hq; simp [optPrice, pathPrices] at hq; omega
    | str _ => simp [numOrUndef] at ha
    | bool _ => simp [numOrUndef] at ha
    | arr _ => simp [numOrUndef] at ha
  | cons st t ih =>
    intro a ha hw
    have hb : numOrUndef (valuePrice st.2) = true := hw st (List.mem_cons_self _ _)
    have hstep : pathPriceFold a (st :: t) = pathPriceFold (jsMaxPrice a (valuePrice st.2)) t := rfl
    rw [hstep, pathPrices_cons]
    have ha' := numOrUndef_jsMaxPrice a (valuePrice st.2) ha hb
    rcases ih (jsMaxPrice a (valuePrice st.2)) ha'
        (fun x hx => hw x (List.mem_cons_of_mem _ hx)) with ⟨hemp, hfold⟩ | ⟨m, hf, hm, hmax⟩
    · rcases jsMaxPrice_shape a (valuePrice st.2) ha hb with ⟨hau, hbu, -⟩ | ⟨m, hnum, -, -⟩
      · left
        constructor
        · rw [hau, hbu] at hemp ⊢
          rw [jsMaxPrice_undef_right] at hemp
          simpa [optPrice] using hemp
        · exact hfold
      · exfalso
        rw [hnum] at hemp
        simp [optPrice] at hemp
    · right
      refine ⟨m, hf, ?_, ?_⟩
      · rcases List.mem_append.mp hm with h | h
        · rcases jsMaxPrice_shape a (valuePrice st.2) ha hb with ⟨-, -, hu⟩ | ⟨m', hnum, hmem, -⟩
          · rw [hu] at h; simp [optPrice] at h
          · rw [hnum] at h
            simp only [optPrice, List.mem_singleton] at h
            subst h
            rw [← List.append_assoc]
            exact List.mem_append_left _ hmem
        · rw [← List.append_assoc]
          exact List.mem_append_right _ h
      · intro q hq
        rw [← List.append_assoc] at hq
        rcases List.mem_append.mp hq with h | h
        · rcases jsMaxPrice_shape a (valuePrice st.2) ha hb with ⟨hau, hbu, -⟩ | ⟨m', hnum, -, hge⟩
          · rw [hau, hbu] at h; simp [optPrice] at h
          · have hqm' : q ≤ m' := hge q h
            have hm'le : m' ≤ m := by
              apply hmax
              rw [hnum]
              exact List.mem_append_left _ (by simp [optPrice])
            omega
        · exact hmax q (List.mem_append_right _ h)

/-! ### The description along a tuple -/

theorem buildVariant_getKey_desc_fold (uuid : String) (p : Product)
    (opt : ProductOption) (comb : Obj) (w : OptValue)
    (hd : lowerStr opt.name ≠ "description")
    (hcomb : isUndef (getKey comb "description") = false) :
    getKey (buildVariant uuid p opt comb w) "description"
      = (valueDesc w).getD (getKey comb "description") := by
  rw [buildVariant_getKey_desc _ _ _ _ _ hd]
  cases w with
  | bare lbl =>
    rw [valueDesc, Option.getD_none, descCoalesce, if_neg (by rw [hcomb]; exact Bool.noConfusion)]
  | obj ob =>
    show (if hasKeyLC ob "description" = true then getKey ob "description"
        else descCoalesce p comb)
      = (valueDesc (OptValue.obj ob)).getD (getKey comb "description")
    by_cases hk : hasKeyLC ob "description" = true
    · rw [if_pos hk, valueDesc, if_pos hk, Option.getD_some]
    · rw [if_neg hk, valueDesc, if_neg hk, Option.getD_none, descCoalesce,
        if_neg (by rw [hcomb]; exact Bool.noConfusion)]

theorem pathDescs_cons (st : ProductOption × OptValue)
    (t : List (ProductOption × OptValue)) :
    pathDescs (st :: t)
      = match valueDesc st.2 with
        | some d => d :: pathDescs t
        | none => pathDescs t := by
  cases h : valueDesc st.2 <;> simp [pathDescs, List.filterMap_cons, h]

theorem extendPath_getKey_desc (uuid : String) (p : Product) :
    ∀ (t : List (ProductOption × OptValue)) (comb : Obj),
      (∀ st ∈ t, lowerStr st.1.name ≠ "description") →
      (∀ st ∈ t, descOk st.2 = true) →
      isUndef (getKey comb "description") = false →
      getKey (extendPath uuid p comb t) "description"
        = ((pathDescs t).getLast?).getD (getKey comb "description") := by
  intro t
  induction t with
  | nil => intro comb _ _ _; simp [pathDescs, extendPath]
  | cons st t ih =>
    intro comb hn hok hcomb
    have hbv := buildVariant_getKey_desc_fold uuid p st.1 comb st.2
      (hn st (List.mem_cons_self _ _)) hcomb
    have hcomb' : isUndef (getKey (buildVariant uuid p st.1 comb st.2) "description")
        = false := by
      rw [hbv]
      cases hv : valueDesc st.2 with
      | none => rw [Option.getD_none]; exact hcomb
      | some d =>
        rw [Option.getD_some]
        have := hok st (List.mem_cons_self _ _)
        rw [descOk, hv] at this
        simpa using this
    rw [extendPath_cons, ih _ (fun x hx => hn x (List.mem_cons_of_mem _ hx))
      (fun x hx => hok x (List.mem_cons_of_mem _ hx)) hcomb', hbv, pathDescs_cons]
    cases hv : valueDesc st.2 with
    | none => rw [Option.getD_none]
    | some d =>
      rw [Option.getD_some, List.getLast?_cons]
      cases hpd : (pathDescs t).getLast? with
      | none => simp
      | some x => simp

/-! ### The option-name fields along a tuple -/

theorem buildVariant_getKey_field (uuid : String) (p : Product) (opt : ProductOption)
    (comb : Obj) (w : OptValue) (hp : lowerStr opt.name ≠ "price")
    (hex : writesExtra w (lowerStr opt.name) = false) :
    getKey (buildVariant uuid p opt comb w) (lowerStr opt.name) = valueLabel w := by
  cases w with
  | bare lbl => exact buildVariant_getKey_field_bare _ _ _ _ _
  | obj ob =>
    rw [valueLabel]
    exact buildVariant_getKey_field_obj _ _ _ _ _ hp
      (writesExtra_frame _ _ hex ob rfl)

theorem extendPath_getKey_last (uuid : String) (p : Product) (n : String)
    (h1 : n ≠ "id") (h2 : n ≠ "parentProductId") (h3 : n ≠ "parentProductName")
    (h4 : n ≠ "description") (h5 : n ≠ "price") :
    ∀ (t : List (ProductOption × OptValue)) (comb : Obj),
      (∀ st ∈ t, writesExtra st.2 n = false) →
      getKey (extendPath uuid p comb t) n = (lastChoice n t).getD (getKey comb n) := by
  intro t
  induction t with
  | nil => intro comb _; simp [lastChoice, extendPath]
  | cons st t ih =>
    intro comb hex
    rw [extendPath_cons, ih _ (fun x hx => hex x (List.mem_cons_of_mem _ hx))]
    by_cases hopt : lowerStr st.1.name = n
    · have hstep : getKey (buildVariant uuid p st.1 comb st.2) n = valueLabel st.2 := by
        rw [← hopt]
        exact buildVariant_getKey_field _ _ _ _ _ (by rw [hopt]; exact h5)
          (by rw [hopt]; exact hex st (List.mem_cons_self _ _))
      rw [hstep]
      rw [show lastChoice n (st :: t)
          = match lastChoice n t with
            | some x => some x
            | none => if lowerStr st.1.name = n then some (valueLabel st.2) else none
          from rfl]
      cases hlc : lastChoice n t with
      | none => simp [hopt]
      | some x => simp
    · have hstep : getKey (buildVariant uuid p st.1 comb st.2) n = getKey comb n :=
        buildVariant_getKey_frame _ _ _ _ _ _ h1 h2 h3 h4 h5
          (fun he => hopt he.symm)
          (writesExtra_frame _ _ (hex st (List.mem_cons_self _ _)))
      rw [hstep]
      rw [show lastChoice n (st :: t)
          = match lastChoice n t with
            | some x => some x
            | none => if lowerStr st.1.name = n then some (valueLabel st.2) else none
          from rfl]
      cases hlc : lastChoice n t with
      | none => simp [hopt]
      | some x => simp

/-! ### Presence of extra override attributes along a tuple -/

theorem extendPath_hasKey_extra_iff (uuid : String) (p : Product) (sk : String)
    (h1 : sk ≠ "id") (h2 : sk ≠ "parentProductId") (h3 : sk ≠ "parentProductName")
    (h4 : sk ≠ "description") (h5 : sk ≠ "price") :
    ∀ (t : List (ProductOption × OptValue)) (comb : Obj),
      (∀ st ∈ t, sk ≠ lowerStr st.1.name) →
      hasKey (extendPath uuid p comb t) sk
        = (hasKey comb sk || t.any (fun st => writesExtra st.2 sk)) := by
  intro t
  induction t with
  | nil => intro comb _; simp [extendPath]
  | cons st t ih =>
    intro comb hopt
    rw [extendPath_cons, ih _ (fun x hx => hopt x (List.mem_cons_of_mem _ hx))]
    by_cases hw : writesExtra st.2 sk = true
    · have hk : hasKey (buildVariant uuid p st.1 comb st.2) sk = true := by
        obtain ⟨ob, hob, kv, hm, he, hnp⟩ := writesExtra_true_elim _ _ hw
        rw [hob, ← he]
        exact buildVariant_hasKey_extra _ _ _ _ _ _ hm hnp
      rw [hk]
      simp [hw]
    · have hwf : writesExtra st.2 sk = false := by simpa using hw
      have hk : hasKey (buildVariant uuid p st.1 comb st.2) sk = hasKey comb sk :=
        buildVariant_hasKey_frame _ _ _ _ _ _ h1 h2 h3 h4 h5
          (hopt st (List.mem_cons_self _ _))
          (writesExtra_frame _ _ hwf)
      rw [hk]
      simp [hwf]

/-! ### The CLI boundary: `main` of `generate_variants.ts`

The surrounding effects are abstracted into an environment: `readFileSync`
either yields the file text or throws (an `error` value), `JSON.parse`
followed by the `.products` access either yields the product list or throws
(malformed JSON, or a shape on which `.products.flatMap` faults), and
`writeFileSync` either succeeds or throws.  `console.info`/`console.error`
output is collected into lists; `uncaught` records whether an exception
escapes `main` (the `try`/`catch` of the source routes every fault of the
`try` block to `console.error`, so it is `false` on every path). -/

structure Argv where
  help : Bool
  hFlag : Bool
  inArg : Option String
  outArg : Option String
  nameArg : Option String

structure FsEnv where
  readFile : String → Except String String
  parseProducts : String → Except String (List Product)
  writeResult : String → Except String Unit

structure RunResult where
  infos : List String
  errors : List String
  written : Option (String × List Obj)
  uncaught : Bool

/-- The help text printed by `printHelp` (its exact content plays no role in
any claim; the model keeps a marker string). -/
def helpText : String := "Moo Coding Task: Product Variant Generating Script"

/-- The defensive configuration message of lines 132–134. -/
def configErrorMsg : String :=
  "Incorrect configuration of required arguments, please try again. For more information on arguments, please run the script with --help"

/-- The `catch` handler's message of lines 151–153. -/
def failMsg (err : String) : String :=
  "Failed to run. Please check input parameters and input file exists and matches the DB schema.\n\n Error returned: " ++ err

/-- The success message of lines 147–149. -/
def successMsg (count : Nat) (outputFile : String) : String :=
  "Script ran successfully, " ++ toString count ++ " variants generated at " ++ outputFile

/-- Function `main` of `generate_variants.ts` (lines 125–156), including the argument
defaulting of lines 45–48 (`??` keeps an empty string).  Note the defensive
configuration check only logs: control falls through into the `try` block. -/
def mainModel (argv : Argv) (env : FsEnv) (uuid : String) : RunResult :=
  let inputFilePath := argv.inArg.getD "./data/input-data.json"
  let outputDir := argv.outArg.getD "./results"
  let outputFileName := argv.nameArg.getD "generated-variants-with-base-data"
  if argv.help || argv.hFlag then
    { infos := [helpText], errors := [], written := none, uncaught := false }
  else
    let configErrors :=
      if inputFilePath = "" || outputDir = "" then [configErrorMsg] else []
    match env.readFile inputFilePath with
    | .error e =>
      { infos := [], errors := configErrors ++ [failMsg e], written := none,
        uncaught := false }
    | .ok text =>
      match env.parseProducts text with
      | .error e =>
        { infos := [], errors := configErrors ++ [failMsg e], written := none,
          uncaught := false }
      | .ok products =>
        let productVariants :=
          products.flatMap (fun product => generateCombinations uuid product)
        let outputFile := outputDir ++ "/" ++ outputFileName ++ ".json"
        match env.writeResult outputFile with
        | .error e =>
          { infos := [], errors := configErrors ++ [failMsg e], written := none,
            uncaught := false }
        | .ok _ =>
          { infos := [successMsg productVariants.length outputFile],
            errors := configErrors,
            written := some (outputFile, productVariants),
            uncaught := false }

/-! ### Locating the last option of a given lower-cased name -/

theorem lastChoice_cons (n : String) (st : ProductOption × OptValue)
    (t : List (ProductOption × OptValue)) :
    lastChoice n (st :: t)
      = match lastChoice n t with
        | some x => some x
        | none => if lowerStr st.1.name = n then some (valueLabel st.2) else none := rfl

theorem forall₂_mem_elem (t : List (ProductOption × OptValue))
    (os : List ProductOption) (h : List.Forall₂ tupleMatches t os) :
    ∀ st ∈ t, st.1 ∈ os ∧ st.2 ∈ st.1.values := by
  induction h with
  | nil => intro st h; simp at h
  | @cons s o t' os' hso hrest ih =>
    intro st hst
    rcases List.mem_cons.mp hst with h1 | h1
    · subst h1
      exact ⟨by rw [hso.1]; exact List.mem_cons_self _ _, by rw [hso.1]; exact hso.2⟩
    · obtain ⟨ha, hb⟩ := ih st h1
      exact ⟨List.mem_cons_of_mem _ ha, hb⟩

theorem lastChoice_none (n : String) :
    ∀ (t : List (ProductOption × OptValue)) (os : List ProductOption),
      List.Forall₂ tupleMatches t os → (∀ o ∈ os, lowerStr o.name ≠ n) →
      lastChoice n t = none := by
  intro t
  induction t with
  | nil => intro os _ _; rfl
  | cons st t ih =>
    intro os h hn
    cases os with
    | nil => cases h
    | cons o os' =>
      rcases List.forall₂_cons.mp h with ⟨⟨h1, -⟩, hrest⟩
      rw [lastChoice_cons, ih os' hrest (fun x hx => hn x (List.mem_cons_of_mem _ hx))]
      rw [if_neg (by rw [h1]; exact hn o (List.mem_cons_self _ _))]

theorem lastChoice_of_suffix (n : String) :
    ∀ (os₁ : List ProductOption) (optB : ProductOption) (os₂ : List ProductOption)
      (t : List (ProductOption × OptValue)),
      List.Forall₂ tupleMatches t (os₁ ++ optB :: os₂) →
      lowerStr optB.name = n →
      (∀ o ∈ os₂, lowerStr o.name ≠ n) →
      ∃ w ∈ optB.values, lastChoice n t = some (valueLabel w) := by
  intro os₁
  induction os₁ with
  | nil =>
    intro optB os₂ t h hn hno
    rw [List.nil_append] at h
    cases t with
    | nil => cases h
    | cons st t₂ =>
      rcases List.forall₂_cons.mp h with ⟨⟨hst1, hst2⟩, hrest⟩
      refine ⟨st.2, hst2, ?_⟩
      rw [lastChoice_cons, lastChoice_none n t₂ os₂ hrest hno,
        if_pos (by rw [hst1]; exact hn)]
  | cons o os₁ ih =>
    intro optB os₂ t h hn hno
    rw [List.cons_append] at h
    cases t with
    | nil => cases h
    | cons st t' =>
      rcases List.forall₂_cons.mp h with ⟨-, hrest⟩
      obtain ⟨w, hw, hlc⟩ := ih optB os₂ t' hrest hn hno
      refine ⟨w, hw, ?_⟩
      rw [lastChoice_cons, hlc]

theorem lastChoice_of_suffix_at (n : String) :
    ∀ (os₁ : List ProductOption) (optB : ProductOption) (os₂ : List ProductOption)
      (t : List (ProductOption × OptValue)),
      List.Forall₂ tupleMatches t (os₁ ++ optB :: os₂) →
      lowerStr optB.name = n →
      (∀ o ∈ os₂, lowerStr o.name ≠ n) →
      ∃ t₁ w t₂, t = t₁ ++ (optB, w) :: t₂ ∧ t₁.length = os₁.length
        ∧ w ∈ optB.values ∧ lastChoice n t = some (valueLabel w) := by
  intro os₁
  induction os₁ with
  | nil =>
    intro optB os₂ t h hn hno
    rw [List.nil_append] at h
    cases t with
    | nil => cases h
    | cons st t₂ =>
      rcases List.forall₂_cons.mp h with ⟨⟨hst1, hst2⟩, hrest⟩
      have hstp : st = (optB, st.2) := by
        cases st with
        | mk a b =>
          simp only at hst1
          rw [hst1]
      refine ⟨[], st.2, t₂, ?_, rfl, hst2, ?_⟩
      · rw [List.nil_append, ← hstp]
      · rw [lastChoice_cons, lastChoice_none n t₂ os₂ hrest hno,
          if_pos (by rw [hst1]; exact hn)]
  | cons o os₁ ih =>
    intro optB os₂ t h hn hno
    rw [List.cons_append] at h
    cases t with
    | nil => cases h
    | cons st t' =>
      rcases List.forall₂_cons.mp h with ⟨-, hrest⟩
      obtain ⟨t₁, w, t₂, heq, hlen, hw, hlc⟩ := ih optB os₂ t' hrest hn hno
      refine ⟨st :: t₁, w, t₂, ?_, ?_, hw, ?_⟩
      · rw [List.cons_append, heq]
      · rw [List.length_cons, hlen, List.length_cons]
      · rw [lastChoice_cons, hlc]

/-! ### Concrete inputs (drawn from the repository's jest fixtures and small
variations of them) -/

def colorOpt : ProductOption := { name := "Color", values := [.bare "Red", .bare "Blue"] }

def finishValue50 : OptValue :=
  .obj [("name", .str "360 wrap print"), ("price", .num 50), ("description", .str "Full wrap")]

def finishValue45 : OptValue :=
  .obj [("name", .str "One-sided printing"), ("price", .num 45), ("description", .str "One side")]

def finishOpt : ProductOption := { name := "Finish", values := [finishValue50, finishValue45] }

def testProduct : Product :=
  { id := 1, name := "Test Product", options := [colorOpt, finishOpt],
    description := "Test product description" }

def materialValue70 : OptValue := .obj [("name", .str "metal"), ("price", .num 70)]

def materialValue65 : OptValue := .obj [("name", .str "plastic"), ("price", .num 65)]

def materialOpt : ProductOption :=
  { name := "Material", values := [materialValue70, materialValue65] }

def twoPriceProduct : Product :=
  { id := 1, name := "P", options := [finishOpt, materialOpt], description := "d" }

def emptyOptionsProduct : Product :=
  { id := 1, name := "P", options := [], description := "d" }

def emptyValuesProduct : Product :=
  { id := 1, name := "P", options := [{ name := "Color", values := [] }], description := "d" }

def descValA : OptValue := .obj [("name", .str "a"), ("description", .str "d1")]

def descValB : OptValue := .obj [("name", .str "b"), ("description", .str "d2")]

def descOptA : ProductOption := { name := "A", values := [descValA] }

def descOptB : ProductOption := { name := "B", values := [descValB] }

def twoDescProduct : Product :=
  { id := 1, name := "P", options := [descOptA, descOptB], description := "base" }

def priceNamedProduct : Product :=
  { id := 1, name := "P", options := [{ name := "Price", values := [.bare "Red"] }],
    description := "d" }

def upperKeyValue : OptValue := .obj [("name", .str "x"), ("Embossed", .bool true)]

def upperKeyOpt : ProductOption := { name := "A", values := [upperKeyValue] }

def upperKeyProduct : Product :=
  { id := 1, name := "P", options := [upperKeyOpt], description := "d" }

def redColorOpt : ProductOption := { name := "Color", values := [.bare "Red"] }

def embValueTrue : OptValue :=
  .obj [("name", .str "360 wrap print"), ("price", .num 50),
    ("description", .str "Full wrap"), ("embossed", .bool true)]

def embValuePlain : OptValue :=
  .obj [("name", .str "One-sided printing"), ("price", .num 45),
    ("description", .str "One side")]

def embOpt : ProductOption := { name := "Finish", values := [embValueTrue, embValuePlain] }

def embProduct : Product :=
  { id := 1, name := "Test Product", options := [redColorOpt, embOpt],
    description := "Test product description" }

def embTwoValueA : OptValue := .obj [("name", .str "a1"), ("embossed", .bool true)]

def embTwoValueB : OptValue := .obj [("name", .str "a2"), ("embossed", .bool false)]

def embTwoOpt : ProductOption := { name := "A", values := [embTwoValueA, embTwoValueB] }

def embTwoProduct : Product :=
  { id := 1, name := "P", options := [embTwoOpt], description := "d" }

def dupColorLower : ProductOption := { name := "color", values := [.bare "Green"] }

def dupNameProduct : Product :=
  { id := 1, name := "P", options := [colorOpt, dupColorLower], description := "d" }

def idOptA : ProductOption := { name := "Id", values := [.bare "x"] }

def idOptB : ProductOption := { name := "ID", values := [.bare "y"] }

def zOpt : ProductOption := { name := "Z", values := [.bare "w"] }

def idDupProduct : Product :=
  { id := 1, name := "P", options := [idOptA, idOptB, zOpt], description := "d" }

/-! ### The claims -/

/-- C1: for every product, `generateCombinations` returns exactly the product
of the per-option value counts many variants; a product with an empty options
list yields exactly 1 variant, and a product in which some option has an
empty values list yields 0 variants. -/
theorem c1_variant_count (uuid : String) (p : Product) :
    (generateCombinations uuid p).length
        = (p.options.map (fun o => o.values.length)).prod
    ∧ (p.options = [] → (generateCombinations uuid p).length = 1)
    ∧ ((∃ o ∈ p.options, o.values = []) → (generateCombinations uuid p).length = 0) := by
  have hlen : (generateCombinations uuid p).length
      = (p.options.map (fun o => o.values.length)).prod := by
    rw [generateCombinations_eq_tuples, List.length_map, tuples_length]
  refine ⟨hlen, ?_, ?_⟩
  · intro h
    rw [hlen, h]
    rfl
  · rintro ⟨o, ho, hv⟩
    rw [hlen]
    apply List.prod_eq_zero
    rw [List.mem_map]
    exact ⟨o, ho, by rw [hv]; rfl⟩

/-- Witness for C1 at the repository's test product (2 × 2 = 4 variants), a
product without options (1 variant) and a product with a value-less option
(0 variants). -/
theorem c1_variant_count_witness :
    (generateCombinations "u" testProduct).length = 4
    ∧ (generateCombinations "u" emptyOptionsProduct).length = 1
    ∧ (generateCombinations "u" emptyValuesProduct).length = 0 := by
  refine ⟨?_, ?_, ?_⟩
  · rw [(c1_variant_count "u" testProduct).1]
    rfl
  · exact (c1_variant_count "u" emptyOptionsProduct).2.1 rfl
  · exact (c1_variant_count "u" emptyValuesProduct).2.2
      ⟨{ name := "Color", values := [] }, List.mem_singleton_self _, rfl⟩

/-- C8: the sequence of variants lists one variant per choice tuple in
nested-iteration order (first-declared option outermost), and that tuple
enumeration is exactly the lexicographic enumeration of value indices in
option order: the variant at position `i` is built along the `i`-th tuple. -/
theorem c8_combination_order (uuid : String) (p : Product) :
    generateCombinations uuid p = (tuples p.options).map (pathVariant uuid p)
    ∧ tuples p.options
        = (lexIndices (p.options.map (fun o => o.values.length))).map
            (pickTuple p.options) :=
  ⟨generateCombinations_eq_tuples uuid p, tuples_eq_lexIndices p.options⟩

/-- C2 counterexample: with two options each carrying a description, the
generated variant's description is the LATER option's `"d2"`, not the first
option's `"d1"` — the first-supplied description is overwritten, contrary to
the claim. -/
theorem c2_counterexample :
    (generateCombinations "u" twoDescProduct).map (fun v => getKey v "description")
      = [.str "d2"]
    ∧ JVal.str "d2" ≠ JVal.str "d1" := by
  refine ⟨rfl, ?_⟩
  intro h
  injection h with h'
  exact absurd h' (by decide)

/-- C3 counterexample: an option literally named `Price` stores its chosen
label in the `price` field, so a variant whose path carries no priced
option-value still ends with a non-absent `price` (here the string `"Red"`). -/
theorem c3_counterexample :
    (generateCombinations "u" priceNamedProduct).map (fun v => getKey v "price")
      = [.str "Red"]
    ∧ JVal.str "Red" ≠ JVal.undef := by
  refine ⟨rfl, ?_⟩
  intro h
  exact JVal.noConfusion h

/-- C4 counterexample: a product with an empty options list yields the single
empty record, which has no `id` (nor any other base field) — the fold never
runs, so the seed `{}` is returned unchanged. -/
theorem c4_counterexample :
    generateCombinations "u" emptyOptionsProduct = [([] : Obj)]
    ∧ hasKey ([] : Obj) "id" = false
    ∧ hasKey ([] : Obj) "description" = false :=
  ⟨rfl, rfl, rfl⟩

/-- C5 counterexample: an override attribute under the upper-case-lettered key
`Embossed` is NOT copied verbatim: the copy loop re-reads the object at the
lower-cased key, so the variant gets `embossed` set to `undefined` (and no
`Embossed` field at all), not the original `true`. -/
theorem c5_counterexample :
    (generateCombinations "u" upperKeyProduct).map (fun v => getKey v "embossed")
      = [.undef]
    ∧ (generateCombinations "u" upperKeyProduct).map (fun v => hasKey v "Embossed")
      = [false]
    ∧ JVal.undef ≠ JVal.bool true := by
  refine ⟨rfl, rfl, ?_⟩
  intro h
  exact JVal.noConfusion h

/-- C6 counterexample: two options lower-casing to the same name `color`
(`Color` with values Red/Blue and `color` with value Green): every variant's
single `color` field holds `"Green"`, which is not a value label of the
first option, so the claim fails for the first option. -/
theorem c6_counterexample :
    (generateCombinations "u" dupNameProduct).map (fun v => getKey v "color")
      = [.str "Green", .str "Green"]
    ∧ JVal.str "Green" ≠ JVal.str "Red"
    ∧ JVal.str "Green" ≠ JVal.str "Blue" := by
  refine ⟨rfl, ?_, ?_⟩ <;>
  · intro h
    injection h with h'
    exact absurd h' (by decide)

/-- C7 counterexample: when another value of the same option also carries the
attribute key (`embossed: false` on the second value), the variant choosing
that other value HAS the key — present with value `false`, not missing as the
claim requires. -/
theorem c7_counterexample :
    (generateCombinations "u" embTwoProduct).map (fun v => hasKey v "embossed")
      = [true, true]
    ∧ (generateCombinations "u" embTwoProduct).map (fun v => getKey v "embossed")
      = [.bool true, .bool false] :=
  ⟨rfl, rfl⟩

/-- C10 counterexample: options `Id` and `ID` share the lower-cased name
`id`, and a later option `Z` follows; the later-declared option's label `"y"`
does NOT survive in the `id` field — the next fold step's object literal
overwrites it with the generated identifier. -/
theorem c10_counterexample :
    (generateCombinations "u" idDupProduct).map (fun v => getKey v "id")
      = [.str "u"]
    ∧ JVal.str "u" ≠ JVal.str "y" := by
  refine ⟨rfl, ?_⟩
  intro h
  injection h with h'
  exact absurd h' (by decide)

theorem buildVariant_getKey_desc_start (uuid : String) (p : Product)
    (opt : ProductOption) (w : OptValue) (hd : lowerStr opt.name ≠ "description") :
    getKey (buildVariant uuid p opt [] w) "description"
      = (valueDesc w).getD (.str p.description) := by
  rw [buildVariant_getKey_desc _ _ _ _ _ hd]
  cases w with
  | bare lbl => rfl
  | obj ob =>
    show (if hasKeyLC ob "description" = true then getKey ob "description"
        else descCoalesce p [])
      = (valueDesc (OptValue.obj ob)).getD (.str p.description)
    by_cases hk : hasKeyLC ob "description" = true
    · rw [if_pos hk, valueDesc, if_pos hk, Option.getD_some]
    · rw [if_neg hk, valueDesc, if_neg hk, Option.getD_none]
      rfl

/-- C2, amended: the variant's description equals the description supplied by
the LAST option-value along the path (in option order) that carries one —
each later carrying value overwrites the earlier one — and equals the
product's base description when no option-value on the (non-empty) path
carries one.  Hypotheses: the product has at least one option, no option is
named `description` after lower-casing, and description writes are defined
values (always the case for an exact lower-case `description` key from JSON). -/
theorem c2_description_last_write (uuid : String) (p : Product)
    (hopts : p.options ≠ [])
    (hn : ∀ o ∈ p.options, lowerStr o.name ≠ "description")
    (hok : ∀ o ∈ p.options, ∀ w ∈ o.values, descOk w = true) :
    generateCombinations uuid p = (tuples p.options).map (pathVariant uuid p)
    ∧ ∀ t ∈ tuples p.options,
        getKey (pathVariant uuid p t) "description"
          = ((pathDescs t).getLast?).getD (.str p.description) := by
  refine ⟨generateCombinations_eq_tuples uuid p, ?_⟩
  intro t ht
  have hf := tuples_forall₂ _ _ ht
  have hmem := forall₂_mem_elem _ _ hf
  have hn' : ∀ st ∈ t, lowerStr st.1.name ≠ "description" :=
    fun st hst => hn st.1 (hmem st hst).1
  have hok' : ∀ st ∈ t, descOk st.2 = true :=
    fun st hst => hok st.1 (hmem st hst).1 st.2 (hmem st hst).2
  cases t with
  | nil =>
    exfalso
    apply hopts
    have hlen := List.Forall₂.length_eq hf
    exact List.length_eq_zero.mp hlen.symm
  | cons st t' =>
    rw [pathVariant, extendPath_cons]
    have hd1 := buildVariant_getKey_desc_start uuid p st.1 st.2
      (hn' st (List.mem_cons_self _ _))
    have hcomb1 : isUndef (getKey (buildVariant uuid p st.1 [] st.2) "description")
        = false := by
      rw [hd1]
      cases hv : valueDesc st.2 with
      | none => rw [Option.getD_none]; rfl
      | some d =>
        rw [Option.getD_some]
        have := hok' st (List.mem_cons_self _ _)
        rw [descOk, hv] at this
        simpa using this
    rw [extendPath_getKey_desc uuid p t' _
      (fun x hx => hn' x (List.mem_cons_of_mem _ hx))
      (fun x hx => hok' x (List.mem_cons_of_mem _ hx)) hcomb1, hd1, pathDescs_cons]
    cases hv : valueDesc st.2 with
    | none => rw [Option.getD_none]
    | some d =>
      rw [Option.getD_some, List.getLast?_cons]
      cases hpd : (pathDescs t').getLast? with
      | none => simp
      | some x => simp

/-- Witness for the amended C2 at the two-description product: the lone
variant's description is the later option's `"d2"`. -/
theorem c2_description_last_write_witness :
    getKey (pathVariant "u" twoDescProduct [(descOptA, descValA), (descOptB, descValB)])
      "description" = .str "d2" := by
  have h := (c2_description_last_write "u" twoDescProduct
    (List.cons_ne_nil _ _) (by decide) (by decide)).2
    [(descOptA, descValA), (descOptB, descValB)] (List.mem_singleton_self _)
  rw [h]
  rfl

/-- C3, amended: provided no option's lower-cased name is `price` (an option
so named stores its label in the `price` field) and prices conform to the
declared `price?: number` type, a variant whose path carries at least one
priced option-value has as its price the maximum of the prices on that path
— never their sum, never simply the last written — and a variant whose path
carries none has `price` undefined; prices of option-values off the path
cannot enter, as the maximum is over this path's prices only. -/
theorem c3_price_max (uuid : String) (p : Product)
    (hn : ∀ o ∈ p.options, lowerStr o.name ≠ "price")
    (hw : ∀ o ∈ p.options, ∀ w ∈ o.values, numOrUndef (valuePrice w) = true) :
    generateCombinations uuid p = (tuples p.options).map (pathVariant uuid p)
    ∧ ∀ t ∈ tuples p.options,
        (pathPrices t = [] → getKey (pathVariant uuid p t) "price" = .undef)
        ∧ (pathPrices t ≠ [] → ∃ mx, getKey (pathVariant uuid p t) "price" = .num mx
            ∧ mx ∈ pathPrices t ∧ ∀ q ∈ pathPrices t, q ≤ mx) := by
  refine ⟨generateCombinations_eq_tuples uuid p, ?_⟩
  intro t ht
  have hf := tuples_forall₂ _ _ ht
  have hmem := forall₂_mem_elem _ _ hf
  have hn' : ∀ st ∈ t, lowerStr st.1.name ≠ "price" :=
    fun st hst => hn st.1 (hmem st hst).1
  have hw' : ∀ st ∈ t, numOrUndef (valuePrice st.2) = true :=
    fun st hst => hw st.1 (hmem st hst).1 st.2 (hmem st hst).2
  rw [pathVariant, extendPath_getKey_price uuid p t [] hn']
  have hchar := pathPriceFold_max t (getKey [] "price") rfl hw'
  rw [show optPrice (getKey [] "price") ++ pathPrices t = pathPrices t from rfl] at hchar
  constructor
  · intro hempty
    rcases hchar with ⟨-, hfold⟩ | ⟨m, -, hm, -⟩
    · exact hfold
    · rw [hempty] at hm
      simp at hm
  · intro hne
    rcases hchar with ⟨hemp, -⟩ | ⟨m, hfold, hm, hmax⟩
    · exact absurd hemp hne
    · exact ⟨m, hfold, hm, hmax⟩

/-- Witness for the amended C3 at the two-priced-options product of the test
suite (Finish 50/45, Material 70/65): on the path choosing 50 and 70 the
price is 70, the maximum, not 120 and not the last-written 50. -/
theorem c3_price_max_witness :
    getKey (pathVariant "u" twoPriceProduct [(finishOpt, finishValue50),
      (materialOpt, materialValue70)]) "price" = .num 70 := by
  have h := (c3_price_max "u" twoPriceProduct (by decide) (by decide)).2
    [(finishOpt, finishValue50), (materialOpt, materialValue70)]
    (List.mem_cons_self _ _)
  have hpp : pathPrices [(finishOpt, finishValue50), (materialOpt, materialValue70)]
      = [50, 70] := rfl
  obtain ⟨mx, hf, hm, hmax⟩ := h.2 (by rw [hpp]; exact List.cons_ne_nil _ _)
  rw [hpp] at hm hmax
  have h70 : (70 : Int) ≤ mx := hmax 70 (by simp)
  have hmx : mx = 70 := by
    rcases (by simpa using hm : mx = 50 ∨ mx = 70) with h1 | h1
    · omega
    · exact h1
  rw [hf, hmx]

/-- C4, amended: every variant of a product with at least one option has all
base fields — `id`, `parentProductId`, `parentProductName`, `description`,
and the `price` key (present, possibly holding `undefined`, i.e.
price-or-absent after serialization) — plus one field per option
(lower-cased name) and a field for every override-contributed attribute on
its path; the single variant of an empty options list is the empty record
with no fields at all. -/
theorem c4_base_fields (uuid : String) (p : Product) (hopts : p.options ≠ []) :
    generateCombinations uuid p = (tuples p.options).map (pathVariant uuid p)
    ∧ ∀ t ∈ tuples p.options,
        hasKey (pathVariant uuid p t) "id" = true
        ∧ hasKey (pathVariant uuid p t) "parentProductId" = true
        ∧ hasKey (pathVariant uuid p t) "parentProductName" = true
        ∧ hasKey (pathVariant uuid p t) "description" = true
        ∧ hasKey (pathVariant uuid p t) "price" = true
        ∧ (∀ o ∈ p.options, hasKey (pathVariant uuid p t) (lowerStr o.name) = true)
        ∧ (∀ st ∈ t, ∀ s, writesExtra st.2 s = true →
            hasKey (pathVariant uuid p t) s = true) := by
  refine ⟨generateCombinations_eq_tuples uuid p, ?_⟩
  intro t ht
  have hf := tuples_forall₂ _ _ ht
  have htne : t ≠ [] := by
    intro he
    apply hopts
    subst he
    have hlen := List.Forall₂.length_eq hf
    exact List.length_eq_zero.mp hlen.symm
  refine ⟨?_, ?_, ?_, ?_, ?_, ?_, ?_⟩
  · exact extendPath_hasKey_base uuid p t [] _ htne (Or.inl rfl)
  · exact extendPath_hasKey_base uuid p t [] _ htne (Or.inr (Or.inl rfl))
  · exact extendPath_hasKey_base uuid p t [] _ htne (Or.inr (Or.inr (Or.inl rfl)))
  · exact extendPath_hasKey_base uuid p t [] _ htne (Or.inr (Or.inr (Or.inr (Or.inl rfl))))
  · exact extendPath_hasKey_base uuid p t [] _ htne (Or.inr (Or.inr (Or.inr (Or.inr rfl))))
  · intro o ho
    obtain ⟨w, hw, hwt⟩ := forall₂_mem_option t p.options hf o ho
    exact extendPath_hasKey_field uuid p t [] o w hwt
  · intro st hst s hws
    exact extendPath_hasKey_extraWrite uuid p s t [] st hst hws

/-- Witness for the amended C4 at the test product: one concrete variant has
all base fields and both option fields. -/
theorem c4_base_fields_witness :
    hasKey (pathVariant "u" testProduct [(colorOpt, .bare "Red"),
      (finishOpt, finishValue50)]) "id" = true
    ∧ hasKey (pathVariant "u" testProduct [(colorOpt, .bare "Red"),
      (finishOpt, finishValue50)]) "price" = true
    ∧ hasKey (pathVariant "u" testProduct [(colorOpt, .bare "Red"),
      (finishOpt, finishValue50)]) "color" = true
    ∧ hasKey (pathVariant "u" testProduct [(colorOpt, .bare "Red"),
      (finishOpt, finishValue50)]) "finish" = true := by
  have h := (c4_base_fields "u" testProduct (List.cons_ne_nil _ _)).2
    [(colorOpt, .bare "Red"), (finishOpt, finishValue50)] (List.mem_cons_self _ _)
  exact ⟨h.1, h.2.2.2.2.1,
    h.2.2.2.2.2.1 colorOpt (List.mem_cons_self _ _),
    h.2.2.2.2.2.1 finishOpt (List.mem_cons_of_mem _ (List.mem_cons_self _ _))⟩

/-- C5, amended: for every Override option-value on a variant's path, every
attribute of the Override except `name` and `price` is written onto the
variant under its lower-cased key, overwriting any same-named field from an
earlier option — but the value written is the Override's value *at the
lower-cased key* (the loop re-reads `value[sanitisedKey]`), which equals the
original value only when the key is already all lower-case; for a key with
upper-case letters whose lower-cased spelling is absent from the Override,
the field is set to `undefined`. -/
theorem c5_extras_copied (uuid : String) (p : Product) (opt : ProductOption)
    (comb : Obj) (ob : Obj) (kv : String × JVal) (hm : kv ∈ ob)
    (hnp : ¬(lowerStr kv.1 = "name" ∨ lowerStr kv.1 = "price")) :
    getKey (buildVariant uuid p opt comb (.obj ob)) (lowerStr kv.1)
      = getKey ob (lowerStr kv.1)
    ∧ hasKey (buildVariant uuid p opt comb (.obj ob)) (lowerStr kv.1) = true := by
  constructor
  · show getKey (extrasFoldAux ob ob _) _ = _
    exact extrasFold_getKey_hit _ _ _ _ hnp ⟨kv, hm, rfl⟩
  · exact buildVariant_hasKey_extra _ _ _ _ _ _ hm hnp

/-- Witness for the amended C5: applying the step to the override carrying
`Embossed: true` (and to a partial variant that already had an `embossed`
field) writes `embossed` with the override's value at the lower-cased key —
`undefined`, not `true`, and not the earlier field's value. -/
theorem c5_extras_copied_witness :
    getKey (buildVariant "u" upperKeyProduct upperKeyOpt [("embossed", .str "old")]
      (.obj [("name", .str "x"), ("Embossed", .bool true)])) "embossed"
      = getKey [("name", .str "x"), ("Embossed", .bool true)] "embossed"
    ∧ getKey [("name", .str "x"), ("Embossed", .bool true)] "embossed" = .undef := by
  refine ⟨?_, rfl⟩
  exact (c5_extras_copied "u" upperKeyProduct upperKeyOpt [("embossed", .str "old")]
    [("name", .str "x"), ("Embossed", .bool true)] ("Embossed", .bool true)
    (List.mem_cons_of_mem _ (List.mem_cons_self _ _)) (by decide)).1

/-- C6, amended: provided the product's options have pairwise distinct
lower-cased names, no option's lower-cased name collides with a base field
(`id`, `price`, `description`, `parentProductId`, `parentProductName`), and
no override attribute (beyond `name`/`price`) has a key lower-casing to an
option's name, every generated variant contains exactly one field named by
each option's lower-cased name, and its value is the label of one of that
option's values.  (Without distinct names a later option overwrites the
field — see the counterexample and C10.) -/
theorem c6_option_fields (uuid : String) (p : Product)
    (hnd : (p.options.map (fun o => lowerStr o.name)).Nodup)
    (hni : ∀ o ∈ p.options, lowerStr o.name ≠ "id" ∧ lowerStr o.name ≠ "price"
      ∧ lowerStr o.name ≠ "description" ∧ lowerStr o.name ≠ "parentProductId"
      ∧ lowerStr o.name ≠ "parentProductName")
    (hex : ∀ o ∈ p.options, ∀ w ∈ o.values, ∀ o' ∈ p.options,
      writesExtra w (lowerStr o'.name) = false) :
    generateCombinations uuid p = (tuples p.options).map (pathVariant uuid p)
    ∧ ∀ t ∈ tuples p.options, ∀ opt ∈ p.options,
        countKey (pathVariant uuid p t) (lowerStr opt.name) = 1
        ∧ ∃ w ∈ opt.values,
            getKey (pathVariant uuid p t) (lowerStr opt.name) = valueLabel w := by
  refine ⟨generateCombinations_eq_tuples uuid p, ?_⟩
  intro t ht opt hopt
  have hf := tuples_forall₂ _ _ ht
  have hmem := forall₂_mem_elem _ _ hf
  obtain ⟨os₁, os₂, hsplit⟩ := List.append_of_mem hopt
  have hsuf : ∀ o ∈ os₂, lowerStr o.name ≠ lowerStr opt.name := by
    intro o ho he
    have hnd' := hnd
    rw [hsplit, List.map_append, List.map_cons, List.nodup_middle] at hnd'
    have hn0 := (List.nodup_cons.mp hnd').1
    apply hn0
    apply List.mem_append_right
    rw [List.mem_map]
    exact ⟨o, ho, he⟩
  have hfs : List.Forall₂ tupleMatches t (os₁ ++ opt :: os₂) := by
    rw [← hsplit]
    exact hf
  obtain ⟨w, hw, hlc⟩ := lastChoice_of_suffix (lowerStr opt.name) os₁ opt os₂ t hfs rfl hsuf
  have hex' : ∀ st ∈ t, writesExtra st.2 (lowerStr opt.name) = false :=
    fun st hst => hex st.1 (hmem st hst).1 st.2 (hmem st hst).2 opt hopt
  obtain ⟨hid, hpr, hde, hpi, hpn⟩ := hni opt hopt
  constructor
  · apply countKey_eq_one
    · exact extendPath_nodup uuid p t [] List.nodup_nil
    · obtain ⟨w', hw', hwt⟩ := forall₂_mem_option t p.options hf opt hopt
      exact extendPath_hasKey_field uuid p t [] opt w' hwt
  · refine ⟨w, hw, ?_⟩
    rw [pathVariant, extendPath_getKey_last uuid p (lowerStr opt.name)
      hid hpi hpn hde hpr t [] hex', hlc, Option.getD_some]

/-- Witness for the amended C6 at the test product: the Red/"360 wrap print"
variant carries exactly one `color` field, holding a label of the Color
option. -/
theorem c6_option_fields_witness :
    countKey (pathVariant "u" testProduct [(colorOpt, .bare "Red"),
      (finishOpt, finishValue50)]) "color" = 1
    ∧ ∃ w ∈ colorOpt.values,
        getKey (pathVariant "u" testProduct [(colorOpt, .bare "Red"),
          (finishOpt, finishValue50)]) "color" = valueLabel w := by
  have h := (c6_option_fields "u" testProduct (by decide) (by decide) (by decide)).2
    [(colorOpt, .bare "Red"), (finishOpt, finishValue50)] (List.mem_cons_self _ _)
    colorOpt (List.mem_cons_self _ _)
  exact h

/-- C7, amended: provided the attribute's lower-cased key collides with no
base field and no option name, the key is present on a variant exactly when
some option-value on its path carries such an attribute; in particular, when
`v` is the only option-value in the product carrying it, the attribute
appears exactly on the variants whose path includes `v` and the key is
missing (not `false`, not `null`) on every other variant — but a different
value of the same option that also carries the key does make it present
(see the counterexample). -/
theorem c7_extra_presence (uuid : String) (p : Product) (sk : String)
    (h1 : sk ≠ "id") (h2 : sk ≠ "parentProductId") (h3 : sk ≠ "parentProductName")
    (h4 : sk ≠ "description") (h5 : sk ≠ "price")
    (hn : ∀ o ∈ p.options, sk ≠ lowerStr o.name) :
    generateCombinations uuid p = (tuples p.options).map (pathVariant uuid p)
    ∧ ∀ t ∈ tuples p.options,
        hasKey (pathVariant uuid p t) sk
          = t.any (fun st => writesExtra st.2 sk) := by
  refine ⟨generateCombinations_eq_tuples uuid p, ?_⟩
  intro t ht
  have hf := tuples_forall₂ _ _ ht
  have hmem := forall₂_mem_elem _ _ hf
  have hn' : ∀ st ∈ t, sk ≠ lowerStr st.1.name :=
    fun st hst => hn st.1 (hmem st hst).1
  rw [pathVariant, extendPath_hasKey_extra_iff uuid p sk h1 h2 h3 h4 h5 t [] hn']
  rfl

/-- Witness for the amended C7 at the test-suite embossed product: the
variant through the embossed finish has the key, the variant through the
plain finish does not. -/
theorem c7_extra_presence_witness :
    hasKey (pathVariant "u" embProduct [(redColorOpt, .bare "Red"),
      (embOpt, embValueTrue)]) "embossed" = true
    ∧ hasKey (pathVariant "u" embProduct [(redColorOpt, .bare "Red"),
      (embOpt, embValuePlain)]) "embossed" = false := by
  have h := (c7_extra_presence "u" embProduct "embossed" (by decide) (by decide)
    (by decide) (by decide) (by decide) (by decide)).2
  constructor
  · rw [h [(redColorOpt, .bare "Red"), (embOpt, embValueTrue)] (List.mem_cons_self _ _)]
    rfl
  · rw [h [(redColorOpt, .bare "Red"), (embOpt, embValuePlain)]
      (List.mem_cons_of_mem _ (List.mem_cons_self _ _))]
    rfl

/-- C10, amended: if a product has two options whose names are equal after
lower-casing, the variant count still equals the product of the per-option
value counts, and — provided the shared lower-cased name collides with no
base field (`id`, `price`, `description`, `parentProductId`,
`parentProductName`, which the fold itself rewrites at later steps), no
override attribute collides with it, and the second of the two is the last
option of that name — each variant carries only a single field under the
shared name, holding the label of the value CHOSEN at the later-declared
option on that variant's path (the tuple decomposes at `optB`'s position,
and the field equals that very component's label); the earlier option's
chosen label is overwritten and not recoverable. -/
theorem c10_shared_name_last_wins (uuid : String) (p : Product)
    (os₁ os₂ os₃ : List ProductOption) (optA optB : ProductOption)
    (hsplit : p.options = os₁ ++ optA :: os₂ ++ optB :: os₃)
    (hAB : lowerStr optA.name = lowerStr optB.name)
    (hlast : ∀ o ∈ os₃, lowerStr o.name ≠ lowerStr optB.name)
    (hni : lowerStr optB.name ≠ "id" ∧ lowerStr optB.name ≠ "price"
      ∧ lowerStr optB.name ≠ "description" ∧ lowerStr optB.name ≠ "parentProductId"
      ∧ lowerStr optB.name ≠ "parentProductName")
    (hex : ∀ o ∈ p.options, ∀ w ∈ o.values,
      writesExtra w (lowerStr optB.name) = false) :
    (generateCombinations uuid p).length
        = (p.options.map (fun o => o.values.length)).prod
    ∧ ∀ t ∈ tuples p.options,
        countKey (pathVariant uuid p t) (lowerStr optB.name) = 1
        ∧ ∃ t₁ w t₂, t = t₁ ++ (optB, w) :: t₂
            ∧ t₁.length = (os₁ ++ optA :: os₂).length
            ∧ w ∈ optB.values
            ∧ getKey (pathVariant uuid p t) (lowerStr optB.name) = valueLabel w := by
  constructor
  · rw [generateCombinations_eq_tuples, List.length_map, tuples_length]
  · intro t ht
    have hf := tuples_forall₂ _ _ ht
    have hmem := forall₂_mem_elem _ _ hf
    have hBmem : optB ∈ p.options := by
      rw [hsplit]
      simp
    have hfs : List.Forall₂ tupleMatches t ((os₁ ++ optA :: os₂) ++ optB :: os₃) := by
      rw [show (os₁ ++ optA :: os₂) ++ optB :: os₃ = os₁ ++ optA :: os₂ ++ optB :: os₃ by
        simp]
      rw [← hsplit]
      exact hf
    obtain ⟨t₁, w, t₂, heq, hlen, hw, hlc⟩ := lastChoice_of_suffix_at (lowerStr optB.name)
      (os₁ ++ optA :: os₂) optB os₃ t hfs rfl hlast
    have hex' : ∀ st ∈ t, writesExtra st.2 (lowerStr optB.name) = false :=
      fun st hst => hex st.1 (hmem st hst).1 st.2 (hmem st hst).2
    obtain ⟨hid, hpr, hde, hpi, hpn⟩ := hni
    constructor
    · apply countKey_eq_one
      · exact extendPath_nodup uuid p t [] List.nodup_nil
      · obtain ⟨w', hw', hwt⟩ := forall₂_mem_option t p.options hf optB hBmem
        exact extendPath_hasKey_field uuid p t [] optB w' hwt
    · refine ⟨t₁, w, t₂, heq, hlen, hw, ?_⟩
      rw [pathVariant, extendPath_getKey_last uuid p (lowerStr optB.name)
        hid hpi hpn hde hpr t [] hex', hlc, Option.getD_some]

/-- Witness for the amended C10 at the `Color`/`color` product: 2 × 1 = 2
variants, one `color` field each, and on the path whose later-option choice
is `Green` the field holds exactly that chosen label. -/
theorem c10_shared_name_last_wins_witness :
    (generateCombinations "u" dupNameProduct).length = 2
    ∧ countKey (pathVariant "u" dupNameProduct [(colorOpt, .bare "Red"),
        (dupColorLower, .bare "Green")]) "color" = 1
    ∧ getKey (pathVariant "u" dupNameProduct [(colorOpt, .bare "Red"),
        (dupColorLower, .bare "Green")]) "color" = valueLabel (.bare "Green") := by
  have h := c10_shared_name_last_wins "u" dupNameProduct [] [] [] colorOpt dupColorLower
    rfl (by decide) (by intro o ho; simp at ho) (by decide) (by decide)
  have h2 := h.2 [(colorOpt, .bare "Red"), (dupColorLower, .bare "Green")]
    (List.mem_cons_self _ _)
  obtain ⟨t₁, w, t₂, heq, hlen, hw, hg⟩ := h2.2
  have hw' : w = OptValue.bare "Green" := by
    cases t₁ with
    | nil => simp at hlen
    | cons a t₁x =>
      cases t₁x with
      | cons b t₁y => simp at hlen
      | nil =>
        rw [List.cons_append, List.nil_append] at heq
        injection heq with hx hrest
        injection hrest with hy hnil
        injection hy with hy1 hy2
        exact hy2.symm
  refine ⟨by rw [h.1]; rfl, h2.1, ?_⟩
  rw [hw'] at hg
  exact hg

/-- C9: `main` never lets an exception propagate (`uncaught` is `false` on
every path); with the help flags clear, an empty resolved input path or
output directory logs the human-readable configuration message; a read,
parse, or write failure logs the catch handler's message and nothing is
written; and on success an informational message stating the variant count
and the output path is emitted and exactly the full variant list is written. -/
theorem c9_main_boundary (argv : Argv) (env : FsEnv) (uuid : String) :
    (mainModel argv env uuid).uncaught = false
    ∧ ((argv.help || argv.hFlag) = false →
        ((argv.inArg.getD "./data/input-data.json" = ""
            ∨ argv.outArg.getD "./results" = "") →
          configErrorMsg ∈ (mainModel argv env uuid).errors)
        ∧ (∀ e, env.readFile (argv.inArg.getD "./data/input-data.json")
              = .error e →
            failMsg e ∈ (mainModel argv env uuid).errors
            ∧ (mainModel argv env uuid).written = none)
        ∧ (∀ text e,
            env.readFile (argv.inArg.getD "./data/input-data.json") = .ok text →
            env.parseProducts text = .error e →
            failMsg e ∈ (mainModel argv env uuid).errors
            ∧ (mainModel argv env uuid).written = none)
        ∧ (∀ text products e,
            env.readFile (argv.inArg.getD "./data/input-data.json") = .ok text →
            env.parseProducts text = .ok products →
            env.writeResult (argv.outArg.getD "./results" ++ "/"
              ++ argv.nameArg.getD "generated-variants-with-base-data" ++ ".json")
              = .error e →
            failMsg e ∈ (mainModel argv env uuid).errors
            ∧ (mainModel argv env uuid).written = none)
        ∧ (∀ text products,
            env.readFile (argv.inArg.getD "./data/input-data.json") = .ok text →
            env.parseProducts text = .ok products →
            env.writeResult (argv.outArg.getD "./results" ++ "/"
              ++ argv.nameArg.getD "generated-variants-with-base-data" ++ ".json")
              = .ok () →
            successMsg (products.flatMap (fun q => generateCombinations uuid q)).length
                (argv.outArg.getD "./results" ++ "/"
                  ++ argv.nameArg.getD "generated-variants-with-base-data" ++ ".json")
              ∈ (mainModel argv env uuid).infos
            ∧ (mainModel argv env uuid).written
                = some (argv.outArg.getD "./results" ++ "/"
                    ++ argv.nameArg.getD "generated-variants-with-base-data" ++ ".json",
                  products.flatMap (fun q => generateCombinations uuid q)))) := by
  constructor
  · by_cases hh : (argv.help || argv.hFlag) = true
    · simp [mainModel, hh]
    · have hh' : (argv.help || argv.hFlag) = false := by simpa using hh
      cases hre : env.readFile (argv.inArg.getD "./data/input-data.json") with
      | error e => simp [mainModel, hh', hre]
      | ok text =>
        cases hpe : env.parseProducts text with
        | error e => simp [mainModel, hh', hre, hpe]
        | ok products =>
          cases hwo : env.writeResult (argv.outArg.getD "./results" ++ "/"
              ++ argv.nameArg.getD "generated-variants-with-base-data" ++ ".json") with
          | error e => simp [mainModel, hh', hre, hpe, hwo]
          | ok u => simp [mainModel, hh', hre, hpe, hwo]
  · intro hh
    refine ⟨?_, ?_, ?_, ?_, ?_⟩
    · intro hcfg
      have hc : (decide (argv.inArg.getD "./data/input-data.json" = "")
          || decide (argv.outArg.getD "./results" = "")) = true := by
        rcases hcfg with h | h <;> simp [h]
      cases hre : env.readFile (argv.inArg.getD "./data/input-data.json") with
      | error e => simp [mainModel, hh, hre, hc]
      | ok text =>
        cases hpe : env.parseProducts text with
        | error e => simp [mainModel, hh, hre, hpe, hc]
        | ok products =>
          cases hwo : env.writeResult (argv.outArg.getD "./results" ++ "/"
              ++ argv.nameArg.getD "generated-variants-with-base-data" ++ ".json") with
          | error e => simp [mainModel, hh, hre, hpe, hwo, hc]
          | ok u => simp [mainModel, hh, hre, hpe, hwo, hc]
    · intro e hre
      simp only [mainModel, hh, hre]
      constructor
      · simp
      · rfl
    · intro text e hre hpe
      simp only [mainModel, hh, hre, hpe]
      constructor
      · simp
      · rfl
    · intro text products e hre hpe hwe
      simp only [mainModel, hh, hre, hpe, hwe]
      constructor
      · simp
      · rfl
    · intro text products hre hpe hwo
      simp only [mainModel, hh, hre, hpe, hwo]
      constructor
      · simp
      · rfl

def argvDefault : Argv :=
  { help := false, hFlag := false, inArg := none, outArg := none, nameArg := none }

def fsEnvOk : FsEnv :=
  { readFile := fun _ => .ok "x", parseProducts := fun _ => .ok [],
    writeResult := fun _ => .ok () }

/-- Witness for C9: running with defaults over an environment holding an
empty catalog succeeds with the 0-variant message at the default path. -/
theorem c9_main_boundary_witness :
    (mainModel argvDefault fsEnvOk "u").uncaught = false
    ∧ successMsg 0 "./results/generated-variants-with-base-data.json"
        ∈ (mainModel argvDefault fsEnvOk "u").infos := by
  have h := c9_main_boundary argvDefault fsEnvOk "u"
  refine ⟨h.1, ?_⟩
  have h5 := (h.2 rfl).2.2.2.2 "x" [] rfl rfl rfl
  exact h5.1
